import Mathlib

/-!
# HackableCode: signature scanner, marker cache and patch engine

A shallow embedding of `SelfHackingApp/HackableCode.cpp`.

Modelling conventions.
* Addresses (`void*`, `unsigned char*`) are natural numbers, `nullptr` is `0`.
  Pointer increments do not wrap.
* Live memory is a total map from addresses to byte values.
* C++ `int` values are integers; the narrowing casts `(int)` of the source (in the
  constructor and at the head of the scan loop) and the `int` subtraction of
  `applyCustomCode` are modelled with an explicit 32 bit wrap.
* The `while (true)` loop of the scanner is iterated under a fuel bound: the loop
  has no termination guarantee of its own, `none` means the fuel ran out.
* The collaborators of `HackUtils` (assembler, disassembler, memory writer, vtable
  resolver) are not part of the translated file; the assembler, disassembler and
  resolver are parameters, the memory writer follows its contract.
-/

namespace SelfHackingApp

/-! ## Data model -/

/-- Live process memory: the byte stored at every address. -/
abbrev Memory := Nat → Nat

/-- `HackableCode::StartTagSignature`. -/
def StartTagSignature : List Nat :=
  [0x57, 0x6A, 0x45, 0xBF, 0xDE, 0xC0, 0xED, 0xFE, 0x5F, 0x5F]

/-- `HackableCode::EndTagSignature`. -/
def EndTagSignature : List Nat :=
  [0x56, 0x6A, 0x45, 0xBE, 0xDE, 0xC0, 0xAD, 0xDE, 0x5E, 0x5E]

/-- `HackableCode::StopSearchTagSignature`. -/
def StopSearchTagSignature : List Nat :=
  [0x52, 0x6A, 0x45, 0xBA, 0x5E, 0xEA, 0x15, 0x0D, 0x5A, 0x5A]

/-- The non-null values the local `targetArray` can hold: it only ever points at one of
the three signature arrays, and the source compares it by pointer identity. -/
inductive Target where
  | StartTag
  | EndTag
  | StopSearchTag
deriving DecidableEq, Repr

/-- The array a `targetArray` pointer designates. -/
def Target.signature : Target → List Nat
  | .StartTag => StartTagSignature
  | .EndTag => EndTagSignature
  | .StopSearchTag => StopSearchTagSignature

/-- `const int tagSize = sizeof(StartTagSignature) / sizeof(StartTagSignature[0])`. -/
def tagSize : Int := StartTagSignature.length

/-- `const int stopSearchingAfterXBytesFailSafe = 4096`. -/
def stopSearchingAfterXBytesFailSafe : Int := 4096

/-- `HackableCode::HackableCodeMarkers(start, end)`. -/
structure HackableCodeMarkers where
  start : Nat
  end_ : Nat
deriving DecidableEq, Repr

/-- The locals of `parseHackableMarkers` that live across loop iterations. -/
structure ScanState where
  currentBase : Nat
  currentSeek : Nat
  targetArray : Option Target
  nextHackableCodeStart : Nat
  extractedMarkers : List HackableCodeMarkers
deriving DecidableEq, Repr

/-- What the scan loop leaves behind when it breaks: the markers extracted so far and
whether the fail-safe diagnostic was printed. -/
structure ScanOutcome where
  markers : List HackableCodeMarkers
  failSafeReported : Bool
deriving DecidableEq, Repr

/-- Effect of one pass through the loop body: back to the loop head, or `break`. -/
inductive LoopStep where
  | next (s : ScanState)
  | done (out : ScanOutcome)
deriving DecidableEq, Repr

/-- Modelled from the spec: the result record of the external assembler
(`HackUtils::CompileResult`, declared in a header that is not part of the translated
file): the compiled bytes, the reported byte count, the error flag and the message of
`errorData`. The byte count is a C++ `int`, as the comparison and the subtraction in
`applyCustomCode` use it. -/
structure CompileResult where
  hasError : Bool
  byteCount : Int
  compiledBytes : List Nat
  errorMessage : String
deriving DecidableEq, Repr

/-- The process as the patch engine sees it: live memory, and the log of the calls made
to the memory writer as (destination, length) pairs. -/
structure Machine where
  mem : Memory
  writeLog : List (Nat × Nat)

/-- The fields of a `HackableCode` object. -/
structure HackableCode where
  codePointer : Nat
  codeEndPointer : Nat
  originalCodeLength : Int
  originalCodeCopy : List Nat
  originalAssemblyString : String
  assemblyString : String
deriving DecidableEq, Repr

namespace HackableCode

/-! ## Signature scanner -/

/-- The narrowing cast `(int)` applied to an address difference: the low 32 bits, read
as a signed value. It gives the same result for a 32 bit and a 64 bit `unsigned long`. -/
def toInt32 (z : Int) : Int :=
  (z + 2 ^ 31) % 2 ^ 32 - 2 ^ 31

/-- The tail of the loop body ("Reset search state"). -/
def resetSearch (s : ScanState) : ScanState :=
  { s with
    targetArray := none
    currentBase := s.currentBase + 1
    currentSeek := s.currentBase + 1 }

/-- One iteration of the `while (true)` loop of `parseHackableMarkers`. -/
def scanIteration (mem : Memory) (s : ScanState) : LoopStep :=
  let signatureIndex : Int := toInt32 ((s.currentSeek : Int) - (s.currentBase : Int))
  if signatureIndex > stopSearchingAfterXBytesFailSafe then
    .done { markers := s.extractedMarkers, failSafeReported := true }
  else
    match s.targetArray with
    | none =>
      if mem s.currentSeek = StartTagSignature.getD 0 0 then
        .next { s with targetArray := some .StartTag, currentSeek := s.currentSeek + 1 }
      else if mem s.currentSeek = EndTagSignature.getD 0 0 then
        .next { s with targetArray := some .EndTag, currentSeek := s.currentSeek + 1 }
      else if mem s.currentSeek = StopSearchTagSignature.getD 0 0 then
        .next { s with targetArray := some .StopSearchTag, currentSeek := s.currentSeek + 1 }
      else
        .next { s with currentBase := s.currentBase + 1, currentSeek := s.currentBase + 1 }
    | some target =>
      if mem s.currentSeek = target.signature.getD signatureIndex.toNat 0 then
        let s1 : ScanState := { s with currentSeek := s.currentSeek + 1 }
        if signatureIndex = tagSize - 1 then
          match target with
          | .StartTag =>
            .next (resetSearch { s1 with nextHackableCodeStart := s1.currentSeek })
          | .EndTag =>
            if s1.nextHackableCodeStart ≠ 0 then
              .next (resetSearch
                { s1 with
                  extractedMarkers :=
                    s1.extractedMarkers ++ [⟨s1.nextHackableCodeStart, s1.currentBase⟩]
                  nextHackableCodeStart := 0 })
            else
              .next (resetSearch s1)
          | .StopSearchTag =>
            .done { markers := s1.extractedMarkers, failSafeReported := false }
        else
          .next s1
      else
        .next (resetSearch s)

/-- Continue the loop after one pass, or stop with the outcome of a `break`. -/
def scanLoop (mem : Memory) : Nat → ScanState → Option ScanOutcome
  | 0, _ => none
  | fuel + 1, s =>
    match scanIteration mem s with
    | .next s1 => scanLoop mem fuel s1
    | .done out => some out

/-- The locals as initialised before the loop, for a resolved function start. -/
def initialScanState (resolvedFunctionStart : Nat) : ScanState :=
  { currentBase := resolvedFunctionStart
    currentSeek := resolvedFunctionStart
    targetArray := none
    nextHackableCodeStart := 0
    extractedMarkers := [] }

/-- The scan of `parseHackableMarkers` from a resolved address. -/
def scanMarkers (mem : Memory) (resolvedFunctionStart fuel : Nat) : Option ScanOutcome :=
  scanLoop mem fuel (initialScanState resolvedFunctionStart)

/-! ## Marker cache -/

/-- `HackableCode::MarkerMap`: a map from function addresses to marker lists. -/
abbrev MarkerMap := Nat → Option (List HackableCodeMarkers)

/-- `MarkerCache[functionStart] = extractedMarkers`. -/
def MarkerMap.assign (cache : MarkerMap) (key : Nat) (value : List HackableCodeMarkers) :
    MarkerMap :=
  fun k => if k = key then some value else cache k

/-- `HackableCode::parseHackableMarkers`, with the process-wide `MarkerCache` passed in
and out, and `HackUtils::resolveVTableAddress` as a parameter. The result is `none`
when the scan loop does not break within the fuel bound. -/
def parseHackableMarkers (resolveVTableAddress : Nat → Nat) (mem : Memory) (fuel : Nat)
    (MarkerCache : MarkerMap) (functionStart : Nat) :
    Option (List HackableCodeMarkers × MarkerMap) :=
  match MarkerCache functionStart with
  | some cached => some (cached, MarkerCache)
  | none =>
    let resolvedFunctionStart := resolveVTableAddress functionStart
    match scanMarkers mem resolvedFunctionStart fuel with
    | none => none
    | some out =>
      let cache1 := MarkerCache.assign functionStart out.markers
      some ((cache1 functionStart).getD [], cache1)

/-! ## Code region and patch engine -/

/-- Subtraction of two C++ `int`s as the machine performs it: the low 32 bits of the
exact difference, read as a signed value. Every operand in the source is an `int`
variable; for integers outside the `int` range, which no such variable can hold, the
exact difference is kept. -/
def intSub (a b : Int) : Int :=
  if (-2 ^ 31 ≤ a ∧ a < 2 ^ 31) ∧ (-2 ^ 31 ≤ b ∧ b < 2 ^ 31) then toInt32 (a - b)
  else a - b

/-- Modelled from the spec: `HackUtils::writeMemory(destination, source, length)`, whose
definition is not part of the translated file. After the call the `length` bytes from
`destination` equal the source bytes, every other byte is as before. -/
def writeMemory (m : Machine) (destination : Nat) (source : List Nat) (length : Nat) :
    Machine :=
  { mem := fun a =>
      if destination ≤ a ∧ a < destination + length then source.getD (a - destination) 0
      else m.mem a
    writeLog := m.writeLog ++ [(destination, length)] }

/-- The constructor `HackableCode::HackableCode(codeStart, codeEnd)`, with
`HackUtils::disassemble` as a parameter that may read live memory. -/
def ctor (disassemble : Memory → Nat → Int → String) (mem : Memory)
    (codeStart codeEnd : Nat) : HackableCode :=
  let originalCodeLength := toInt32 ((codeEnd : Int) - (codeStart : Int))
  let originalAssemblyString := disassemble mem codeStart originalCodeLength
  { codePointer := codeStart
    codeEndPointer := codeEnd
    originalCodeLength := originalCodeLength
    originalCodeCopy := []
    originalAssemblyString := originalAssemblyString
    assemblyString := originalAssemblyString }

/-- `HackableCode::getAssemblyString`. -/
def getAssemblyString (self : HackableCode) : String := self.assemblyString

/-- `HackableCode::getOriginalAssemblyString`. -/
def getOriginalAssemblyString (self : HackableCode) : String := self.originalAssemblyString

/-- `HackableCode::getPointer`. -/
def getPointer (self : HackableCode) : Nat := self.codePointer

/-- `HackableCode::getOriginalLength`. -/
def getOriginalLength (self : HackableCode) : Int := self.originalCodeLength

/-- `HackableCode::applyCustomCode(newAssembly)`, with `HackUtils::assemble` as a
parameter. Returns the boolean result, the updated object and the updated machine. -/
def applyCustomCode (assemble : String → Nat → CompileResult) (self : HackableCode)
    (m : Machine) (newAssembly : String) : Bool × HackableCode × Machine :=
  let self1 : HackableCode := { self with assemblyString := newAssembly }
  if self1.codePointer = 0 then
    (false, self1, m)
  else
    let compileResult := assemble self1.assemblyString self1.codePointer
    if compileResult.hasError = true ∨ compileResult.byteCount > self1.originalCodeLength then
      (false, self1, m)
    else
      let unfilledBytes : Int := intSub self1.originalCodeLength compileResult.byteCount
      let compiledBytes := compileResult.compiledBytes ++ List.replicate unfilledBytes.toNat 0x90
      (true, self1, writeMemory m self1.codePointer compiledBytes compiledBytes.length)

/-- `HackableCode::restoreState`. -/
def restoreState (self : HackableCode) (m : Machine) : Machine :=
  writeMemory m self.codePointer self.originalCodeCopy self.originalCodeCopy.length

/-! ## Vocabulary of the claims -/

/-- The `n` bytes of memory from address `a`. -/
def readBytes (mem : Memory) (a n : Nat) : List Nat :=
  (List.range n).map fun i => mem (a + i)

/-- The complete signature `sig` occurs in memory beginning at address `b`. -/
def matchesAt (mem : Memory) (b : Nat) (sig : List Nat) : Bool :=
  (List.range sig.length).all fun j => mem (b + j) == sig.getD j 0

/-- The tag that occurs completely at address `b`, if any. -/
def tagAt (mem : Memory) (b : Nat) : Option Target :=
  if matchesAt mem b StartTagSignature then some .StartTag
  else if matchesAt mem b EndTagSignature then some .EndTag
  else if matchesAt mem b StopSearchTagSignature then some .StopSearchTag
  else none

/-- The complete tag occurrences that begin in `[lo, hi)`, in address order. -/
def tagOccurrences (mem : Memory) (lo hi : Nat) : List (Nat × Target) :=
  (List.range' lo (hi - lo)).filterMap fun b => (tagAt mem b).map fun t => (b, t)

/-- The occurrence list `Start@p1, End@q1, ..., Start@pN, End@qN` of a list of pairs. -/
def pairTags : List (Nat × Nat) → List (Nat × Target)
  | [] => []
  | (p, q) :: rest => (p, .StartTag) :: (q, .EndTag) :: pairTags rest

/-- Place the bytes `bytes` at address `a` on top of `mem`. -/
def place (a : Nat) (bytes : List Nat) (mem : Memory) : Memory :=
  fun x => if a ≤ x ∧ x < a + bytes.length then bytes.getD (x - a) 0 else mem x

/-! ## The scan as a walk over candidate positions -/

/-- The loop after one pass: iterate on, or stop with the outcome of the `break`. -/
def contLoop (mem : Memory) (fuel : Nat) : LoopStep → Option ScanOutcome
  | .next s => scanLoop mem fuel s
  | .done out => some out

/-- What the loop body does on the last byte of a complete tag that began at `b`. -/
def onFullMatch (t : Target) (b nx : Nat) (ms : List HackableCodeMarkers) : LoopStep :=
  match t with
  | .StartTag => .next ⟨b + 1, b + 1, none, b + 10, ms⟩
  | .EndTag => .next ⟨b + 1, b + 1, none, 0, if nx ≠ 0 then ms ++ [⟨nx, b⟩] else ms⟩
  | .StopSearchTag => .done ⟨ms, false⟩

/-- Net effect of the loop on the candidate position `b`. -/
def positionStep (mem : Memory) (b nx : Nat) (ms : List HackableCodeMarkers) : LoopStep :=
  match tagAt mem b with
  | none => .next ⟨b + 1, b + 1, none, nx, ms⟩
  | some t => onFullMatch t b nx ms

/-- The scan as a walk over candidate positions: `n` positions from `b`, the position
after them holding the Stop-Search tag. -/
def scanPositions (mem : Memory) :
    Nat → Nat → Nat → List HackableCodeMarkers → List HackableCodeMarkers
  | 0, _, _, ms => ms
  | n + 1, b, nx, ms =>
    match positionStep mem b nx ms with
    | .next s => scanPositions mem n s.currentBase s.nextHackableCodeStart s.extractedMarkers
    | .done out => out.markers

/-- The pairing rule on a list of tag occurrences, with pending start `nx` (`0` when
there is none) and the markers `ms` emitted so far. -/
def pairOccurrences :
    List (Nat × Target) → Nat → List HackableCodeMarkers → List HackableCodeMarkers
  | [], _, ms => ms
  | (b, .StartTag) :: rest, _, ms => pairOccurrences rest (b + 10) ms
  | (b, .EndTag) :: rest, nx, ms =>
    pairOccurrences rest 0 (if nx ≠ 0 then ms ++ [⟨nx, b⟩] else ms)
  | (_, .StopSearchTag) :: _, _, ms => ms


/-- Loop invariant of the scanner: the seek cursor is at most 9 bytes past the base
cursor; with no target selected the cursors coincide; with a target selected the bytes
from the base cursor up to the seek cursor match that signature. -/
def ScanInv (mem : Memory) (s : ScanState) : Prop :=
  ∃ k, k ≤ 9 ∧ s.currentSeek = s.currentBase + k ∧
    match s.targetArray with
    | none => k = 0
    | some t => 1 ≤ k ∧ ∀ i, i < k → mem (s.currentBase + i) = t.signature.getD i 0


/-! ## Sample inputs -/

/-- Two Start/End pairs and a Stop-Search tag; every filler byte is the first byte of
the Start tag, and a partial End tag precedes the first complete End tag. -/
def pairsMemory : Memory :=
  place 100 StartTagSignature (place 112 [0x56, 0x6A] (place 114 EndTagSignature
    (place 126 StartTagSignature (place 136 EndTagSignature
      (place 146 StopSearchTagSignature (fun _ => 0x57))))))

/-- A Start/End pair that begins 5000 bytes after the scan origin 8192, then a
Stop-Search tag; every other byte is zero. -/
def failSafeMemory : Memory :=
  place 13192 StartTagSignature (place 13206 EndTagSignature
    (place 13216 StopSearchTagSignature (fun _ => 0)))


/-- Two live code bytes at address 100. -/
def sampleMemory : Memory := place 100 [0x01, 0x02] (fun _ => 0)

/-- The sample memory, before any write. -/
def sampleMachine : Machine := { mem := sampleMemory, writeLog := [] }

/-- A stand-in disassembler. -/
def sampleDisassemble : Memory → Nat → Int → String := fun _ _ _ => "inc eax"

/-- The region constructed over the two sample bytes. -/
def sampleRegion : HackableCode := ctor sampleDisassemble sampleMemory 100 102

/-- An assembler that compiles every text to the one byte `ret`. -/
def retAssembler : String → Nat → CompileResult :=
  fun _ _ => { hasError := false, byteCount := 1, compiledBytes := [0xC3], errorMessage := "" }

/-- An assembler that returns one byte and reports the least `int` as byte count. -/
def minIntAssembler : String → Nat → CompileResult :=
  fun _ _ =>
    { hasError := false, byteCount := -2147483648, compiledBytes := [0xC3], errorMessage := "" }

/-- An assembler that compiles every text to three bytes. -/
def threeByteAssembler : String → Nat → CompileResult :=
  fun _ _ =>
    { hasError := false, byteCount := 3, compiledBytes := [0x90, 0x90, 0xC3], errorMessage := "" }

/-- A cache that holds one entry, for the key `7`. -/
def sampleCache : MarkerMap := fun k => if k = 7 then some [⟨110, 114⟩] else none

/-- A resolver that maps the key `7` to the scan origin `90`. -/
def sampleResolver : Nat → Nat := fun a => a + 83


/-- A Start tag at 100 whose only End tag lies beyond the Stop-Search tag at 120. -/
def unmatchedMemory : Memory :=
  place 100 StartTagSignature (place 120 StopSearchTagSignature
    (place 130 EndTagSignature (fun _ => 0)))

/-! ## Vocabulary of the scanner's invariants -/

/-- The local `signatureIndex` as the loop head computes it from the two cursors. -/
def signatureIndex (s : ScanState) : Int :=
  toInt32 ((s.currentSeek : Int) - (s.currentBase : Int))

/-- The locals at the top of iteration `n` of the loop (counting from 0), `none` when
the loop has broken before. -/
def scanStateAfter (mem : Memory) (s : ScanState) : Nat → Option ScanState
  | 0 => some s
  | n + 1 =>
    match scanStateAfter mem s n with
    | none => none
    | some s1 =>
      match scanIteration mem s1 with
      | .next s2 => some s2
      | .done _ => none

/-- The addresses one pass through the loop body dereferences: `*currentSeek`, unless
the fail-safe test breaks out of the loop before any read. -/
def iterationReads (s : ScanState) : List Nat :=
  if signatureIndex s > stopSearchingAfterXBytesFailSafe then [] else [s.currentSeek]

/-- The addresses the loop dereferences, in order. -/
def scanReads (mem : Memory) : Nat → ScanState → List Nat
  | 0, _ => []
  | fuel + 1, s =>
    iterationReads s ++
      match scanIteration mem s with
      | .next s1 => scanReads mem fuel s1
      | .done _ => []

/-- A finite byte view read as memory: index `a` of the view is address `a`. -/
def viewMemory (view : List Nat) : Memory := fun a => view.getD a 0

/-! ## Region factory -/

/-- `HackableCode::parseHackables`: one constructed region per marker, in marker order.
The cache of `parseHackableMarkers` is threaded through. -/
def parseHackables (resolveVTableAddress : Nat → Nat)
    (disassemble : Memory → Nat → Int → String) (mem : Memory) (fuel : Nat)
    (MarkerCache : MarkerMap) (functionStart : Nat) :
    Option (List HackableCode × MarkerMap) :=
  match parseHackableMarkers resolveVTableAddress mem fuel MarkerCache functionStart with
  | none => none
  | some (markerList, cache1) =>
    some (markerList.map fun marker => ctor disassemble mem marker.start marker.end_, cache1)

/-- `HackableCode::create`. -/
def create (resolveVTableAddress : Nat → Nat) (disassemble : Memory → Nat → Int → String)
    (mem : Memory) (fuel : Nat) (MarkerCache : MarkerMap) (functionStart : Nat) :
    Option (List HackableCode × MarkerMap) :=
  parseHackables resolveVTableAddress disassemble mem fuel MarkerCache functionStart

/-! ## More sample inputs -/

/-- Two Start tags, then two End tags, then a Stop-Search tag. -/
def overwriteMemory : Memory :=
  place 100 StartTagSignature (place 112 StartTagSignature (place 124 EndTagSignature
    (place 136 EndTagSignature (place 148 StopSearchTagSignature (fun _ => 0)))))

/-- A Start tag at 100, `2 ^ 31` zero bytes from 110, then an End tag and a Stop-Search
tag. -/
def hugeRegionMemory : Memory :=
  place 100 StartTagSignature (place 2147483758 EndTagSignature
    (place 2147483768 StopSearchTagSignature (fun _ => 0)))

/-! ## The matcher that resumes just past a matched tag -/

/-- Resume with `base = seek`, no target selected. -/
def resumePastTag (s : ScanState) : ScanState :=
  { s with
    targetArray := none
    currentBase := s.currentSeek
    currentSeek := s.currentSeek }

/-- One iteration of the reference matcher the specification describes for the resume
rule: the loop body of the source, except that after a full match of a Start or End tag
it resumes with `base = seek`, just past the matched tag, instead of one byte after the
tag's first byte. -/
def skipIteration (mem : Memory) (s : ScanState) : LoopStep :=
  let signatureIndex : Int := toInt32 ((s.currentSeek : Int) - (s.currentBase : Int))
  if signatureIndex > stopSearchingAfterXBytesFailSafe then
    .done { markers := s.extractedMarkers, failSafeReported := true }
  else
    match s.targetArray with
    | none =>
      if mem s.currentSeek = StartTagSignature.getD 0 0 then
        .next { s with targetArray := some .StartTag, currentSeek := s.currentSeek + 1 }
      else if mem s.currentSeek = EndTagSignature.getD 0 0 then
        .next { s with targetArray := some .EndTag, currentSeek := s.currentSeek + 1 }
      else if mem s.currentSeek = StopSearchTagSignature.getD 0 0 then
        .next { s with targetArray := some .StopSearchTag, currentSeek := s.currentSeek + 1 }
      else
        .next { s with currentBase := s.currentBase + 1, currentSeek := s.currentBase + 1 }
    | some target =>
      if mem s.currentSeek = target.signature.getD signatureIndex.toNat 0 then
        let s1 : ScanState := { s with currentSeek := s.currentSeek + 1 }
        if signatureIndex = tagSize - 1 then
          match target with
          | .StartTag =>
            .next (resumePastTag { s1 with nextHackableCodeStart := s1.currentSeek })
          | .EndTag =>
            if s1.nextHackableCodeStart ≠ 0 then
              .next (resumePastTag
                { s1 with
                  extractedMarkers :=
                    s1.extractedMarkers ++ [⟨s1.nextHackableCodeStart, s1.currentBase⟩]
                  nextHackableCodeStart := 0 })
            else
              .next (resumePastTag s1)
          | .StopSearchTag =>
            .done { markers := s1.extractedMarkers, failSafeReported := false }
        else
          .next s1
      else
        .next (resetSearch s)

/-- The reference matcher's loop, under a fuel bound. -/
def skipLoop (mem : Memory) : Nat → ScanState → Option ScanOutcome
  | 0, _ => none
  | fuel + 1, s =>
    match skipIteration mem s with
    | .next s1 => skipLoop mem fuel s1
    | .done out => some out

/-- The reference matcher run from a resolved address. -/
def skipMarkers (mem : Memory) (resolvedFunctionStart fuel : Nat) : Option ScanOutcome :=
  skipLoop mem fuel (initialScanState resolvedFunctionStart)

/-- The reference matcher's loop after one pass. -/
def contSkipLoop (mem : Memory) (fuel : Nat) : LoopStep → Option ScanOutcome
  | .next s => skipLoop mem fuel s
  | .done out => some out

/-- What the reference matcher does on the last byte of a complete tag that began at
`b`. -/
def onFullMatchSkip (t : Target) (b nx : Nat) (ms : List HackableCodeMarkers) : LoopStep :=
  match t with
  | .StartTag => .next ⟨b + 10, b + 10, none, b + 10, ms⟩
  | .EndTag => .next ⟨b + 10, b + 10, none, 0, if nx ≠ 0 then ms ++ [⟨nx, b⟩] else ms⟩
  | .StopSearchTag => .done ⟨ms, false⟩

/-- Net effect of the reference matcher on the candidate position `b`. -/
def positionStepSkip (mem : Memory) (b nx : Nat) (ms : List HackableCodeMarkers) :
    LoopStep :=
  match tagAt mem b with
  | none => .next ⟨b + 1, b + 1, none, nx, ms⟩
  | some t => onFullMatchSkip t b nx ms

/-- A finite view: two filler bytes, a Start tag, one code byte, an End tag and a
Stop-Search tag, 33 bytes in all. -/
def sampleView : List Nat :=
  [0x90, 0x90] ++ StartTagSignature ++ [0xC3] ++ EndTagSignature ++ StopSearchTagSignature

/-! ## The scanner, one candidate position at a time -/

theorem scanLoop_succ (mem : Memory) (fuel : Nat) (s : ScanState) :
    scanLoop mem (fuel + 1) s = contLoop mem fuel (scanIteration mem s) := by
  simp only [scanLoop, contLoop]

theorem iteration_matching (mem : Memory) (t : Target) (b k nx : Nat)
    (ms : List HackableCodeMarkers) (hk : k ≤ 9) :
    scanIteration mem ⟨b, b + k, some t, nx, ms⟩ =
      if mem (b + k) = t.signature.getD k 0 then
        if k = 9 then onFullMatch t b nx ms else .next ⟨b, b + k + 1, some t, nx, ms⟩
      else .next ⟨b + 1, b + 1, none, nx, ms⟩ := by
  have h1 : toInt32 ((b : Int) + (k : Int) - (b : Int)) = (k : Int) := by
    have e : (b : Int) + (k : Int) - (b : Int) = (k : Int) := by ring
    rw [e]
    unfold toInt32
    omega
  have h2 : ¬ ((k : Int) > 4096) := by omega
  have h3 : ((k : Int) = 10 - 1) ↔ k = 9 := by omega
  have h5 : ((k : Int) = 9) ↔ k = 9 := by omega
  have h4 : ((0 : Nat) : Int) + 1 + 1 + 1 + 1 + 1 + 1 + 1 + 1 + 1 + 1 - 1 = 9 := by norm_num
  simp only [scanIteration, stopSearchingAfterXBytesFailSafe, 
    tagSize, StartTagSignature, List.length_cons, List.length_nil, resetSearch, Nat.cast_add,
    Nat.cast_one, h4, Nat.cast_inj, Nat.cast_ofNat, ne_eq, ite_not, h1, h2, if_false, Int.toNat_ofNat, h5]
  by_cases hm : mem (b + k) = t.signature.getD k 0
  · rw [if_pos hm, if_pos hm]
    by_cases h9 : k = 9
    · subst h9
      rw [if_pos rfl, if_pos rfl]
      cases t
      · rfl
      · simp only [onFullMatch]
        by_cases hnx : nx = 0
        · simp [hnx]
        · simp [hnx]
      · rfl
    · rw [if_neg h9, if_neg h9]
  · rw [if_neg hm, if_neg hm]

theorem matching_run_full (mem : Memory) (t : Target) (b nx : Nat)
    (ms : List HackableCodeMarkers) :
    ∀ d k, k + d = 9 →
      (∀ i, k ≤ i → i ≤ 9 → mem (b + i) = t.signature.getD i 0) →
      ∀ fuel, scanLoop mem (fuel + (d + 1)) ⟨b, b + k, some t, nx, ms⟩ =
        contLoop mem fuel (onFullMatch t b nx ms) := by
  intro d
  induction d with
  | zero =>
    intro k hk hall fuel
    have hk9 : k = 9 := by omega
    subst hk9
    rw [scanLoop_succ, iteration_matching mem t b 9 nx ms (le_refl 9),
      if_pos (hall 9 (le_refl 9) (le_refl 9)), if_pos rfl]
  | succ d ih =>
    intro k hk hall fuel
    have hk9 : k ≠ 9 := by omega
    have hstep : fuel + (d + 1 + 1) = (fuel + (d + 1)) + 1 := by omega
    rw [hstep, scanLoop_succ, iteration_matching mem t b k nx ms (by omega),
      if_pos (hall k (le_refl k) (by omega)), if_neg hk9]
    exact ih (k + 1) (by omega) (fun i h1 h2 => hall i (by omega) h2) fuel

theorem matching_run_mismatch (mem : Memory) (t : Target) (b nx : Nat)
    (ms : List HackableCodeMarkers) :
    ∀ d k, k + d = 9 →
      (∃ i, k ≤ i ∧ i ≤ 9 ∧ mem (b + i) ≠ t.signature.getD i 0) →
      ∃ j, 1 ≤ j ∧ j ≤ d + 1 ∧ ∀ fuel,
        scanLoop mem (fuel + j) ⟨b, b + k, some t, nx, ms⟩ =
          scanLoop mem fuel ⟨b + 1, b + 1, none, nx, ms⟩ := by
  intro d
  induction d with
  | zero =>
    intro k hk hex
    obtain ⟨i, hi1, hi2, hne⟩ := hex
    have hi : i = k := by omega
    subst hi
    refine ⟨1, le_refl 1, le_refl 1, fun fuel => ?_⟩
    rw [scanLoop_succ, iteration_matching mem t b i nx ms (by omega), if_neg hne]
    rfl
  | succ d ih =>
    intro k hk hex
    by_cases hm : mem (b + k) = t.signature.getD k 0
    · obtain ⟨i, hi1, hi2, hne⟩ := hex
      have hik : i ≠ k := fun h => hne (h ▸ hm)
      obtain ⟨j, hj1, hj2, hj⟩ := ih (k + 1) (by omega) ⟨i, by omega, hi2, hne⟩
      refine ⟨j + 1, by omega, by omega, fun fuel => ?_⟩
      have hk9 : k ≠ 9 := by omega
      have hstep : fuel + (j + 1) = (fuel + j) + 1 := by omega
      rw [hstep, scanLoop_succ, iteration_matching mem t b k nx ms (by omega), if_pos hm,
        if_neg hk9]
      exact hj fuel
    · refine ⟨1, le_refl 1, by omega, fun fuel => ?_⟩
      rw [scanLoop_succ, iteration_matching mem t b k nx ms (by omega), if_neg hm]
      rfl

theorem matchesAt_iff (mem : Memory) (b : Nat) (sig : List Nat) :
    matchesAt mem b sig = true ↔ ∀ i, i < sig.length → mem (b + i) = sig.getD i 0 := by
  simp [matchesAt, List.all_eq_true]

theorem iteration_idle (mem : Memory) (b nx : Nat) (ms : List HackableCodeMarkers) :
    scanIteration mem ⟨b, b, none, nx, ms⟩ =
      if mem b = 0x57 then .next ⟨b, b + 1, some .StartTag, nx, ms⟩
      else if mem b = 0x56 then .next ⟨b, b + 1, some .EndTag, nx, ms⟩
      else if mem b = 0x52 then .next ⟨b, b + 1, some .StopSearchTag, nx, ms⟩
      else .next ⟨b + 1, b + 1, none, nx, ms⟩ := by
  have h0 : toInt32 0 = 0 := by decide
  simp [scanIteration, stopSearchingAfterXBytesFailSafe, StartTagSignature, EndTagSignature,
    StopSearchTagSignature, h0]

theorem signature_length (t : Target) : t.signature.length = 10 := by
  cases t <;> rfl

theorem matchesAt_first (mem : Memory) (b : Nat) (t : Target)
    (h : matchesAt mem b t.signature = true) : mem b = t.signature.getD 0 0 := by
  have h0 := (matchesAt_iff mem b t.signature).1 h 0 (by rw [signature_length]; omega)
  simpa using h0

theorem tagAt_of_first (mem : Memory) (b : Nat) (t : Target)
    (h0 : mem b = t.signature.getD 0 0) :
    tagAt mem b = if matchesAt mem b t.signature = true then some t else none := by
  have hS := matchesAt_first mem b .StartTag
  have hE := matchesAt_first mem b .EndTag
  have hP := matchesAt_first mem b .StopSearchTag
  cases t
  · simp only [Target.signature] at h0 hS hE hP ⊢
    have h1 : matchesAt mem b EndTagSignature ≠ true := fun h => by
      have := hE h; rw [h0] at this; revert this; decide
    have h2 : matchesAt mem b StopSearchTagSignature ≠ true := fun h => by
      have := hP h; rw [h0] at this; revert this; decide
    simp [tagAt, h1, h2]
  · simp only [Target.signature] at h0 hS hE hP ⊢
    have h1 : matchesAt mem b StartTagSignature ≠ true := fun h => by
      have := hS h; rw [h0] at this; revert this; decide
    have h2 : matchesAt mem b StopSearchTagSignature ≠ true := fun h => by
      have := hP h; rw [h0] at this; revert this; decide
    simp [tagAt, h1, h2]
  · simp only [Target.signature] at h0 hS hE hP ⊢
    have h1 : matchesAt mem b StartTagSignature ≠ true := fun h => by
      have := hS h; rw [h0] at this; revert this; decide
    have h2 : matchesAt mem b EndTagSignature ≠ true := fun h => by
      have := hE h; rw [h0] at this; revert this; decide
    simp [tagAt, h1, h2]

theorem tagAt_of_no_first (mem : Memory) (b : Nat)
    (h : ∀ t : Target, mem b ≠ t.signature.getD 0 0) : tagAt mem b = none := by
  have h1 : matchesAt mem b StartTagSignature ≠ true :=
    fun hm => h .StartTag (matchesAt_first mem b .StartTag hm)
  have h2 : matchesAt mem b EndTagSignature ≠ true :=
    fun hm => h .EndTag (matchesAt_first mem b .EndTag hm)
  have h3 : matchesAt mem b StopSearchTagSignature ≠ true :=
    fun hm => h .StopSearchTag (matchesAt_first mem b .StopSearchTag hm)
  simp [tagAt, h1, h2, h3]

theorem position_run_target (mem : Memory) (t : Target) (b nx : Nat)
    (ms : List HackableCodeMarkers) (h0 : mem b = t.signature.getD 0 0)
    (hfirst : scanIteration mem ⟨b, b, none, nx, ms⟩ = .next ⟨b, b + 1, some t, nx, ms⟩) :
    ∃ j, 1 ≤ j ∧ j ≤ 10 ∧ ∀ fuel,
      scanLoop mem (fuel + j) ⟨b, b, none, nx, ms⟩ =
        contLoop mem fuel (positionStep mem b nx ms) := by
  by_cases hall : ∀ i, 1 ≤ i → i ≤ 9 → mem (b + i) = t.signature.getD i 0
  · have hm : matchesAt mem b t.signature = true := by
      rw [matchesAt_iff, signature_length]
      intro i hi
      rcases Nat.eq_zero_or_pos i with h | h
      · subst h; simpa using h0
      · exact hall i h (by omega)
    have htag : tagAt mem b = some t := by rw [tagAt_of_first mem b t h0, if_pos hm]
    refine ⟨10, by omega, le_refl 10, fun fuel => ?_⟩
    have hstep : fuel + 10 = (fuel + (8 + 1)) + 1 := by omega
    rw [hstep, scanLoop_succ, hfirst]
    simp only [positionStep, htag]
    exact matching_run_full mem t b nx ms 8 1 rfl hall fuel
  · have hm : matchesAt mem b t.signature ≠ true := by
      rw [Ne, matchesAt_iff, signature_length]
      intro hm
      exact hall (fun i _ h9 => hm i (by omega))
    have htag : tagAt mem b = none := by rw [tagAt_of_first mem b t h0, if_neg hm]
    push_neg at hall
    obtain ⟨i, hi1, hi2, hne⟩ := hall
    obtain ⟨j, hj1, hj2, hj⟩ := matching_run_mismatch mem t b nx ms 8 1 rfl ⟨i, hi1, hi2, hne⟩
    refine ⟨j + 1, by omega, by omega, fun fuel => ?_⟩
    have hstep : fuel + (j + 1) = (fuel + j) + 1 := by omega
    rw [hstep, scanLoop_succ, hfirst]
    simp only [positionStep, htag]
    exact hj fuel

theorem position_run (mem : Memory) (b nx : Nat) (ms : List HackableCodeMarkers) :
    ∃ j, 1 ≤ j ∧ j ≤ 10 ∧ ∀ fuel,
      scanLoop mem (fuel + j) ⟨b, b, none, nx, ms⟩ =
        contLoop mem fuel (positionStep mem b nx ms) := by
  have hidle := iteration_idle mem b nx ms
  by_cases hS : mem b = 0x57
  · exact position_run_target mem .StartTag b nx ms hS (by rw [hidle, if_pos hS])
  · by_cases hE : mem b = 0x56
    · exact position_run_target mem .EndTag b nx ms hE (by rw [hidle, if_neg hS, if_pos hE])
    · by_cases hP : mem b = 0x52
      · exact position_run_target mem .StopSearchTag b nx ms hP
          (by rw [hidle, if_neg hS, if_neg hE, if_pos hP])
      · have htag : tagAt mem b = none := by
          apply tagAt_of_no_first
          intro t
          cases t
          · exact hS
          · exact hE
          · exact hP
        refine ⟨1, le_refl 1, by omega, fun fuel => ?_⟩
        rw [scanLoop_succ, hidle, if_neg hS, if_neg hE, if_neg hP]
        simp only [positionStep, htag]

theorem scanLoop_positions (mem : Memory) :
    ∀ n b nx ms, tagAt mem (b + n) = some .StopSearchTag →
      ∀ fuel, 10 * (n + 1) ≤ fuel →
        scanLoop mem fuel ⟨b, b, none, nx, ms⟩ = some ⟨scanPositions mem n b nx ms, false⟩ := by
  intro n
  induction n with
  | zero =>
    intro b nx ms hstop fuel hfuel
    obtain ⟨j, _, hj10, hj⟩ := position_run mem b nx ms
    have hf : fuel = (fuel - j) + j := by omega
    rw [hf, hj]
    simp only [Nat.add_zero] at hstop
    simp only [positionStep, hstop, onFullMatch, contLoop, scanPositions]
  | succ n ih =>
    intro b nx ms hstop fuel hfuel
    obtain ⟨j, _, hj10, hj⟩ := position_run mem b nx ms
    have hf : fuel = (fuel - j) + j := by omega
    have hstop1 : tagAt mem (b + 1 + n) = some .StopSearchTag := by
      have : b + 1 + n = b + (n + 1) := by omega
      rw [this]; exact hstop
    have hfuel1 : 10 * (n + 1) ≤ fuel - j := by omega
    rw [hf, hj]
    cases htag : tagAt mem b with
    | none =>
      simp only [positionStep, htag, contLoop, scanPositions]
      exact ih (b + 1) nx ms hstop1 (fuel - j) hfuel1
    | some t =>
      cases t with
      | StartTag =>
        simp only [positionStep, htag, onFullMatch, contLoop, scanPositions]
        exact ih (b + 1) (b + 10) ms hstop1 (fuel - j) hfuel1
      | EndTag =>
        simp only [positionStep, htag, onFullMatch, contLoop, scanPositions]
        exact ih (b + 1) 0 _ hstop1 (fuel - j) hfuel1
      | StopSearchTag =>
        simp only [positionStep, htag, onFullMatch, contLoop, scanPositions]

theorem tagOccurrences_step (mem : Memory) (b n : Nat) :
    tagOccurrences mem b (b + (n + 1)) =
      match tagAt mem b with
      | none => tagOccurrences mem (b + 1) (b + 1 + n)
      | some t => (b, t) :: tagOccurrences mem (b + 1) (b + 1 + n) := by
  have h1 : b + (n + 1) - b = n + 1 := by omega
  have h2 : b + 1 + n - (b + 1) = n := by omega
  simp only [tagOccurrences, h1, h2, List.range'_succ, List.filterMap_cons]
  cases tagAt mem b <;> rfl

theorem scanPositions_eq_pairOccurrences (mem : Memory) :
    ∀ n b nx ms,
      scanPositions mem n b nx ms = pairOccurrences (tagOccurrences mem b (b + n)) nx ms := by
  intro n
  induction n with
  | zero =>
    intro b nx ms
    simp [scanPositions, tagOccurrences, pairOccurrences]
  | succ n ih =>
    intro b nx ms
    rw [tagOccurrences_step]
    cases htag : tagAt mem b with
    | none =>
      simp only [scanPositions, positionStep, htag]
      exact ih (b + 1) nx ms
    | some t =>
      cases t with
      | StartTag =>
        simp only [scanPositions, positionStep, htag, onFullMatch, pairOccurrences]
        exact ih (b + 1) (b + 10) ms
      | EndTag =>
        simp only [scanPositions, positionStep, htag, onFullMatch, pairOccurrences]
        exact ih (b + 1) 0 _
      | StopSearchTag =>
        simp only [scanPositions, positionStep, htag, onFullMatch, pairOccurrences]

/-- The scan from `o`, when a Stop-Search tag begins at `r`, is the pairing rule applied
to the tag occurrences of `[o, r)`. -/
theorem scanMarkers_eq_pairOccurrences (mem : Memory) (o r : Nat) (hor : o ≤ r)
    (hstop : tagAt mem r = some .StopSearchTag) (fuel : Nat)
    (hfuel : 10 * (r - o + 1) ≤ fuel) :
    scanMarkers mem o fuel = some ⟨pairOccurrences (tagOccurrences mem o r) 0 [], false⟩ := by
  have hr : o + (r - o) = r := by omega
  have h := scanLoop_positions mem (r - o) o 0 [] (by rw [hr]; exact hstop) fuel hfuel
  rw [scanPositions_eq_pairOccurrences, hr] at h
  exact h

theorem pairOccurrences_pairTags :
    ∀ (ps : List (Nat × Nat)) (nx : Nat) (ms : List HackableCodeMarkers),
      pairOccurrences (pairTags ps) nx ms =
        ms ++ ps.map (fun pq => (⟨pq.1 + 10, pq.2⟩ : HackableCodeMarkers)) := by
  intro ps
  induction ps with
  | nil => intro nx ms; simp [pairTags, pairOccurrences]
  | cons pq rest ih =>
    intro nx ms
    obtain ⟨p, q⟩ := pq
    simp only [pairTags, pairOccurrences, ih, List.map_cons]
    simp

theorem scanPositions_mem (mem : Memory) :
    ∀ n b nx ms m, m ∈ scanPositions mem n b nx ms →
      m ∈ ms ∨
      (nx ≠ 0 ∧ m.start = nx ∧ b ≤ m.end_ ∧ m.end_ < b + n ∧
        tagAt mem m.end_ = some .EndTag ∧ ∀ x, b ≤ x → x < m.end_ → tagAt mem x = none) ∨
      (∃ p, b ≤ p ∧ p < m.end_ ∧ m.end_ < b + n ∧ m.start = p + 10 ∧
        tagAt mem p = some .StartTag ∧ tagAt mem m.end_ = some .EndTag ∧
        ∀ x, p < x → x < m.end_ → tagAt mem x = none) := by
  intro n
  induction n with
  | zero =>
    intro b nx ms m hm
    exact Or.inl hm
  | succ n ih =>
    intro b nx ms m hm
    cases htag : tagAt mem b with
    | none =>
      simp only [scanPositions, positionStep, htag] at hm
      rcases ih (b + 1) nx ms m hm with h | ⟨h1, h2, h3, h4, h5, h6⟩ | ⟨p, h1, h2, h3, h4, h5, h6, h7⟩
      · exact Or.inl h
      · refine Or.inr (Or.inl ⟨h1, h2, by omega, by omega, h5, fun x hx1 hx2 => ?_⟩)
        rcases Nat.eq_or_lt_of_le hx1 with hx | hx
        · rw [← hx]; exact htag
        · exact h6 x hx hx2
      · exact Or.inr (Or.inr ⟨p, by omega, h2, by omega, h4, h5, h6, h7⟩)
    | some t =>
      cases t with
      | StartTag =>
        simp only [scanPositions, positionStep, htag, onFullMatch] at hm
        rcases ih (b + 1) (b + 10) ms m hm with h | ⟨_, h2, h3, h4, h5, h6⟩ | ⟨p, h1, h2, h3, h4, h5, h6, h7⟩
        · exact Or.inl h
        · exact Or.inr (Or.inr ⟨b, le_refl b, by omega, by omega, h2, htag, h5,
            fun x hx1 hx2 => h6 x hx1 hx2⟩)
        · exact Or.inr (Or.inr ⟨p, by omega, h2, by omega, h4, h5, h6, h7⟩)
      | EndTag =>
        simp only [scanPositions, positionStep, htag, onFullMatch] at hm
        rcases ih (b + 1) 0 _ m hm with h | ⟨h1, _⟩ | ⟨p, h1, h2, h3, h4, h5, h6, h7⟩
        · by_cases hnx : nx = 0
          · simp only [hnx, ne_eq, not_true_eq_false, if_false] at h
            exact Or.inl h
          · simp only [ne_eq, hnx, not_false_eq_true, if_true, List.mem_append,
              List.mem_singleton] at h
            rcases h with h | h
            · exact Or.inl h
            · subst h
              exact Or.inr (Or.inl ⟨hnx, rfl, le_refl b, (by show b < b + (n + 1); omega), htag,
                fun x hx1 hx2 => absurd (show x < b from hx2) (by omega)⟩)
        · exact absurd rfl h1
        · exact Or.inr (Or.inr ⟨p, by omega, h2, by omega, h4, h5, h6, h7⟩)
      | StopSearchTag =>
        simp only [scanPositions, positionStep, htag, onFullMatch] at hm
        exact Or.inl hm

/-- Claim C1: when the complete tag occurrences from the scan origin `o` up to a
Stop-Search tag at `r` are exactly `Start@p1, End@q1, ..., Start@pN, End@qN` in address
order, the scan breaks on that tag and returns exactly the markers `(p_i + 10, q_i)`, in
that order, whatever the other bytes are. -/
theorem scan_yields_one_marker_per_pair (mem : Memory) (o r : Nat) (ps : List (Nat × Nat))
    (hor : o ≤ r) (hocc : tagOccurrences mem o r = pairTags ps)
    (hstop : tagAt mem r = some .StopSearchTag) (fuel : Nat)
    (hfuel : 10 * (r - o + 1) ≤ fuel) :
    scanMarkers mem o fuel =
      some ⟨ps.map (fun pq => (⟨pq.1 + 10, pq.2⟩ : HackableCodeMarkers)), false⟩ := by
  rw [scanMarkers_eq_pairOccurrences mem o r hor hstop fuel hfuel, hocc,
    pairOccurrences_pairTags]
  simp

theorem scan_yields_one_marker_per_pair_witness :
    scanMarkers pairsMemory 90 570 = some ⟨[⟨110, 114⟩, ⟨136, 136⟩], false⟩ :=
  scan_yields_one_marker_per_pair pairsMemory 90 146 [(100, 114), (126, 136)]
    (by decide) (by decide) (by decide) 570 (by decide)

/-- Claim C10: when a Start tag at `p` is followed by a Stop-Search tag at `r` with no
End tag between them, the scan returns, no returned marker starts just after that Start
tag, and every returned marker ends before the Stop-Search tag. -/
theorem unmatched_start_yields_no_marker (mem : Memory) (o p r : Nat) (hop : o ≤ p)
    (hpr : p < r) (hstart : tagAt mem p = some .StartTag)
    (hstop : tagAt mem r = some .StopSearchTag)
    (hnoend : ∀ q, p < q → q < r → tagAt mem q ≠ some .EndTag)
    (fuel : Nat) (hfuel : 10 * (r - o + 1) ≤ fuel) :
    ∃ out, scanMarkers mem o fuel = some out ∧
      (∀ m ∈ out.markers, m.start ≠ p + 10) ∧ ∀ m ∈ out.markers, m.end_ < r := by
  have hr : o + (r - o) = r := by omega
  refine ⟨⟨scanPositions mem (r - o) o 0 [], false⟩, ?_, ?_, ?_⟩
  · exact scanLoop_positions mem (r - o) o 0 [] (by rw [hr]; exact hstop) fuel hfuel
  · intro m hm hms
    rcases scanPositions_mem mem (r - o) o 0 [] m hm with
      h | ⟨h, _⟩ | ⟨p1, h1, h2, h3, h4, h5, h6, h7⟩
    · simp at h
    · exact h rfl
    · have hp : p1 = p := by omega
      subst hp
      exact hnoend m.end_ h2 (by omega) h6
  · intro m hm
    rcases scanPositions_mem mem (r - o) o 0 [] m hm with
      h | ⟨h, _⟩ | ⟨p1, h1, h2, h3, h4, h5, h6, h7⟩
    · simp at h
    · exact absurd rfl h
    · omega

theorem unmatched_start_yields_no_marker_witness :
    ∃ out, scanMarkers unmatchedMemory 90 310 = some out ∧
      (∀ m ∈ out.markers, m.start ≠ 100 + 10) ∧ ∀ m ∈ out.markers, m.end_ < 120 :=
  unmatched_start_yields_no_marker unmatchedMemory 90 100 120 (by decide) (by decide)
    (by decide) (by decide)
    (fun q h1 h2 =>
      (by decide : ∀ q, q < 120 → 100 < q → tagAt unmatchedMemory q ≠ some .EndTag) q h2 h1)
    310 (by decide)

/-! ## Loop invariant and fail-safe -/

theorem scanInv_initial (mem : Memory) (o : Nat) : ScanInv mem (initialScanState o) :=
  ⟨0, by omega, rfl, rfl⟩

/-- One pass of the loop body keeps the invariant and never moves the base cursor back;
it breaks only on the last byte of a complete Stop-Search tag, never through the
fail-safe test. -/
theorem scanIteration_inv (mem : Memory) (s : ScanState) (h : ScanInv mem s) :
    match scanIteration mem s with
    | .next s1 => ScanInv mem s1 ∧ s.currentBase ≤ s1.currentBase
    | .done out => out.failSafeReported = false ∧ out.markers = s.extractedMarkers ∧
        tagAt mem s.currentBase = some .StopSearchTag := by
  obtain ⟨b, sk, tgt, nx, ms⟩ := s
  obtain ⟨k, hk9, hseek, htgt⟩ := h
  simp only at hseek htgt
  subst hseek
  cases tgt with
  | none =>
    simp only at htgt
    subst htgt
    rw [Nat.add_zero, iteration_idle]
    by_cases hS : mem b = 0x57
    · rw [if_pos hS]
      refine ⟨⟨1, by omega, rfl, le_refl 1, fun i hi => ?_⟩, le_refl b⟩
      have : i = 0 := by omega
      subst this
      simpa using hS
    · rw [if_neg hS]
      by_cases hE : mem b = 0x56
      · rw [if_pos hE]
        refine ⟨⟨1, by omega, rfl, le_refl 1, fun i hi => ?_⟩, le_refl b⟩
        have : i = 0 := by omega
        subst this
        simpa using hE
      · rw [if_neg hE]
        by_cases hP : mem b = 0x52
        · rw [if_pos hP]
          refine ⟨⟨1, by omega, rfl, le_refl 1, fun i hi => ?_⟩, le_refl b⟩
          have : i = 0 := by omega
          subst this
          simpa using hP
        · rw [if_neg hP]
          exact ⟨⟨0, by omega, rfl, rfl⟩, Nat.le_succ b⟩
  | some t =>
    simp only at htgt
    obtain ⟨hk1, hpre⟩ := htgt
    rw [iteration_matching mem t b k nx ms hk9]
    by_cases hm : mem (b + k) = t.signature.getD k 0
    · rw [if_pos hm]
      by_cases h9 : k = 9
      · rw [if_pos h9]
        subst h9
        cases t with
        | StartTag => exact ⟨⟨0, by omega, rfl, rfl⟩, Nat.le_succ b⟩
        | EndTag => exact ⟨⟨0, by omega, rfl, rfl⟩, Nat.le_succ b⟩
        | StopSearchTag =>
          refine ⟨rfl, rfl, ?_⟩
          have hfirst : mem b = Target.StopSearchTag.signature.getD 0 0 := by
            simpa using hpre 0 (by omega)
          have hall : matchesAt mem b Target.StopSearchTag.signature = true := by
            rw [matchesAt_iff, signature_length]
            intro i hi
            rcases Nat.lt_or_ge i 9 with h | h
            · exact hpre i h
            · have : i = 9 := by omega
              subst this
              exact hm
          rw [tagAt_of_first mem b .StopSearchTag hfirst, if_pos hall]
      · rw [if_neg h9]
        refine ⟨⟨k + 1, by omega, rfl, by omega, fun i hi => ?_⟩, le_refl b⟩
        rcases Nat.lt_or_ge i k with h | h
        · exact hpre i h
        · have : i = k := by omega
          subst this
          exact hm
    · rw [if_neg hm]
      exact ⟨⟨0, by omega, rfl, rfl⟩, Nat.le_succ b⟩

/-- The loop breaks only at a Stop-Search tag: when it returns at all, it has not
reported the fail-safe, and a complete Stop-Search tag begins at or after the base
cursor it started from. -/
theorem scanLoop_some (mem : Memory) :
    ∀ fuel s out, ScanInv mem s → scanLoop mem fuel s = some out →
      out.failSafeReported = false ∧
        ∃ r, s.currentBase ≤ r ∧ tagAt mem r = some .StopSearchTag := by
  intro fuel
  induction fuel with
  | zero =>
    intro s out _ h
    simp [scanLoop] at h
  | succ fuel ih =>
    intro s out hinv h
    rw [scanLoop_succ] at h
    have hstep := scanIteration_inv mem s hinv
    cases hit : scanIteration mem s with
    | next s1 =>
      rw [hit] at h hstep
      simp only [contLoop] at h
      obtain ⟨hrep, r, hr, htag⟩ := ih s1 out hstep.1 h
      exact ⟨hrep, r, le_trans hstep.2 hr, htag⟩
    | done out1 =>
      rw [hit] at h hstep
      simp only [contLoop, Option.some.injEq] at h
      subst h
      exact ⟨hstep.1, s.currentBase, le_refl _, hstep.2.2⟩

/-- Without a Stop-Search tag at or after the origin the scan never returns, however
much fuel it is given: the 4096 byte fail-safe does not end it. -/
theorem scanMarkers_none_of_no_stop (mem : Memory) (o : Nat)
    (h : ∀ r, o ≤ r → tagAt mem r ≠ some .StopSearchTag) (fuel : Nat) :
    scanMarkers mem o fuel = none := by
  cases hs : scanMarkers mem o fuel with
  | none => rfl
  | some out =>
    obtain ⟨_, r, hr, htag⟩ := scanLoop_some mem fuel (initialScanState o) out
      (scanInv_initial mem o) hs
    exact absurd htag (h r hr)

theorem tagOccurrences_append (mem : Memory) (lo mid hi : Nat) (h1 : lo ≤ mid)
    (h2 : mid ≤ hi) :
    tagOccurrences mem lo hi = tagOccurrences mem lo mid ++ tagOccurrences mem mid hi := by
  have hr : List.range' lo (hi - lo) =
      List.range' lo (mid - lo) ++ List.range' mid (hi - mid) := by
    have h := List.range'_append lo (mid - lo) (hi - mid) 1
    have e1 : lo + 1 * (mid - lo) = mid := by omega
    have e2 : hi - mid + (mid - lo) = hi - lo := by omega
    rw [e1, e2] at h
    exact h.symm
  simp only [tagOccurrences, hr, List.filterMap_append]

theorem tagOccurrences_eq_nil (mem : Memory) (lo hi : Nat)
    (h : ∀ x, lo ≤ x → x < hi → tagAt mem x = none) : tagOccurrences mem lo hi = [] := by
  simp only [tagOccurrences]
  rw [List.filterMap_eq_nil_iff]
  intro x hx
  rw [List.mem_range'_1] at hx
  rw [h x hx.1 (by omega)]
  rfl

theorem failSafeMemory_filler (x : Nat) (hx : x < 13192) : failSafeMemory x = 0 := by
  simp only [failSafeMemory, place, StartTagSignature, EndTagSignature, StopSearchTagSignature,
    List.length_cons, List.length_nil]
  rw [if_neg (by omega), if_neg (by omega), if_neg (by omega)]

/-- Claim C7, evaluated on a memory whose first tag begins 5000 bytes after the scan
origin: the scan does not stop at the 4096 byte budget and reports nothing; it goes on to
the Stop-Search tag and returns a marker that lies wholly beyond the budget. On a memory
without any tag it never returns, whatever the fuel. -/
theorem failSafe_does_not_stop_scan :
    scanMarkers failSafeMemory 8192 50250 = some ⟨[⟨13202, 13206⟩], false⟩ ∧
      ∀ fuel, scanMarkers (fun _ => 0) 8192 fuel = none := by
  have hnil : tagOccurrences failSafeMemory 8192 13192 = [] := by
    apply tagOccurrences_eq_nil
    intro x _ hx
    apply tagAt_of_no_first
    intro t
    rw [failSafeMemory_filler x hx]
    cases t <;> decide
  have htail : tagOccurrences failSafeMemory 13192 13216 =
      [(13192, .StartTag), (13206, .EndTag)] := by decide
  have hstop : tagAt failSafeMemory 13216 = some .StopSearchTag := by decide
  constructor
  · rw [scanMarkers_eq_pairOccurrences failSafeMemory 8192 13216 (by decide) hstop 50250
      (by decide), tagOccurrences_append failSafeMemory 8192 13192 13216 (by decide)
      (by decide), hnil, htail]
    rfl
  · intro fuel
    apply scanMarkers_none_of_no_stop
    intro r _
    have hfirst : ∀ t : Target, (0 : Nat) ≠ t.signature.getD 0 0 := by
      intro t
      cases t <;> decide
    rw [tagAt_of_no_first (fun _ => 0) r hfirst]
    exact fun h => Option.noConfusion h

/-! ## Patch engine -/

theorem applyCustomCode_success (assemble : String → Nat → CompileResult)
    (self : HackableCode) (m : Machine) (text : String)
    (hok : (applyCustomCode assemble self m text).1 = true) :
    self.codePointer ≠ 0 ∧ (assemble text self.codePointer).hasError = false ∧
      (assemble text self.codePointer).byteCount ≤ self.originalCodeLength ∧
      (applyCustomCode assemble self m text).2.2 =
        writeMemory m self.codePointer
          ((assemble text self.codePointer).compiledBytes ++
            List.replicate
              (intSub self.originalCodeLength (assemble text self.codePointer).byteCount).toNat 0x90)
          ((assemble text self.codePointer).compiledBytes ++
            List.replicate
              (intSub self.originalCodeLength (assemble text self.codePointer).byteCount).toNat
                0x90).length := by
  unfold applyCustomCode at hok ⊢
  simp only [] at hok ⊢
  by_cases hp : self.codePointer = 0
  · rw [if_pos hp] at hok
    exact absurd hok Bool.false_ne_true
  · rw [if_neg hp] at hok ⊢
    by_cases hc : (assemble text self.codePointer).hasError = true ∨
        (assemble text self.codePointer).byteCount > self.originalCodeLength
    · rw [if_pos hc] at hok
      exact absurd hok Bool.false_ne_true
    · rw [if_neg hc]
      push_neg at hc
      refine ⟨hp, ?_, ?_, rfl⟩
      · simpa using hc.1
      · exact hc.2

/-- The constructor leaves the original-code copy empty, and no operation fills it, so
`restoreState` never changes a byte of a constructed region. -/
theorem restoreState_ctor_mem (disassemble : Memory → Nat → Int → String) (mem : Memory)
    (codeStart codeEnd : Nat) (m : Machine) :
    (restoreState (ctor disassemble mem codeStart codeEnd) m).mem = m.mem := by
  funext a
  simp [restoreState, ctor, writeMemory]

/-- Claim C2, evaluated on a two-byte region: after one successful activation,
`restoreState` leaves the patched bytes in place instead of the bytes that were live at
construction. -/
theorem restoreState_leaves_patch_in_place :
    (applyCustomCode retAssembler sampleRegion sampleMachine "ret").1 = true ∧
      readBytes sampleMemory 100 2 = [0x01, 0x02] ∧
      readBytes (restoreState (applyCustomCode retAssembler sampleRegion sampleMachine "ret").2.1
        (applyCustomCode retAssembler sampleRegion sampleMachine "ret").2.2).mem 100 2 =
          [0xC3, 0x90] := by
  decide

/-- Claim C3: when `applyCustomCode` is rejected (null code pointer, assembler error, or
a byte count above the original length) it returns false and the machine, both live
memory and the log of memory writes, is exactly as before the call. -/
theorem applyCustomCode_failure_writes_nothing (assemble : String → Nat → CompileResult)
    (self : HackableCode) (m : Machine) (text : String)
    (hfail : self.codePointer = 0 ∨ (assemble text self.codePointer).hasError = true ∨
      (assemble text self.codePointer).byteCount > self.originalCodeLength) :
    (applyCustomCode assemble self m text).1 = false ∧
      (applyCustomCode assemble self m text).2.2 = m := by
  unfold applyCustomCode
  simp only []
  by_cases hp : self.codePointer = 0
  · rw [if_pos hp]
    exact ⟨rfl, rfl⟩
  · rw [if_neg hp]
    have hc : (assemble text self.codePointer).hasError = true ∨
        (assemble text self.codePointer).byteCount > self.originalCodeLength := by
      rcases hfail with h | h
      · exact absurd h hp
      · exact h
    rw [if_pos hc]
    exact ⟨rfl, rfl⟩

theorem applyCustomCode_failure_writes_nothing_witness :
    (applyCustomCode threeByteAssembler sampleRegion sampleMachine "nop; nop; ret").1 = false ∧
      (applyCustomCode threeByteAssembler sampleRegion sampleMachine "nop; nop; ret").2.2 =
        sampleMachine :=
  applyCustomCode_failure_writes_nothing threeByteAssembler sampleRegion sampleMachine
    "nop; nop; ret" (Or.inr (Or.inr (by decide)))

/-- Claim C4: `applyCustomCode` returns true exactly when the code pointer is not null,
the assembler reports no error, and the reported byte count is at most the original
length. -/
theorem applyCustomCode_true_iff (assemble : String → Nat → CompileResult)
    (self : HackableCode) (m : Machine) (text : String) :
    (applyCustomCode assemble self m text).1 = true ↔
      (self.codePointer ≠ 0 ∧ (assemble text self.codePointer).hasError = false ∧
        (assemble text self.codePointer).byteCount ≤ self.originalCodeLength) := by
  constructor
  · intro hok
    have h := applyCustomCode_success assemble self m text hok
    exact ⟨h.1, h.2.1, h.2.2.1⟩
  · rintro ⟨hp, he, hb⟩
    unfold applyCustomCode
    simp only []
    rw [if_neg hp]
    have hc : ¬ ((assemble text self.codePointer).hasError = true ∨
        (assemble text self.codePointer).byteCount > self.originalCodeLength) := by
      rw [he]
      intro h
      rcases h with h | h
      · exact absurd h (by decide)
      · omega
    rw [if_neg hc]

/-- The `int` subtraction overflows when the reported byte count is far below the
original length: with byte count `-2 ^ 31` on the two-byte sample region the call
succeeds, no NOP is added, and the one compiled byte alone is written. -/
theorem applyCustomCode_overflow_adds_no_nop :
    (applyCustomCode minIntAssembler sampleRegion sampleMachine "ret").1 = true ∧
      (applyCustomCode minIntAssembler sampleRegion sampleMachine "ret").2.2.writeLog =
        [(100, 1)] ∧
      readBytes (applyCustomCode minIntAssembler sampleRegion sampleMachine "ret").2.2.mem
        100 2 = [0xC3, 0x02] := by
  decide

/-- Claim C8: when the cache already holds an entry for the key, `parseHackableMarkers`
returns the stored list and the same cache for every memory, resolver and fuel (no fuel
at all included, so nothing is scanned); and a call followed by a second call on the
same key, under any other memory and resolver, gives what the first call alone gives. -/
theorem parseHackableMarkers_cache_hit (cache : MarkerMap) (f : Nat)
    (ms : List HackableCodeMarkers) (hentry : cache f = some ms)
    (resolve : Nat → Nat) (mem : Memory) (fuel : Nat)
    (cache0 : MarkerMap) (resolve1 resolve2 : Nat → Nat) (mem1 mem2 : Memory)
    (fuel1 fuel2 : Nat) :
    parseHackableMarkers resolve mem fuel cache f = some (ms, cache) ∧
      (parseHackableMarkers resolve1 mem1 fuel1 cache0 f).bind
          (fun first => parseHackableMarkers resolve2 mem2 fuel2 first.2 f) =
        parseHackableMarkers resolve1 mem1 fuel1 cache0 f := by
  constructor
  · simp only [parseHackableMarkers, hentry]
  · unfold parseHackableMarkers
    cases h0 : cache0 f with
    | some cached => simp [h0]
    | none =>
      cases hs : scanMarkers mem1 (resolve1 f) fuel1 with
      | none => simp [hs]
      | some out => simp [hs, MarkerMap.assign]

theorem parseHackableMarkers_cache_hit_witness :
    parseHackableMarkers sampleResolver (fun _ => 0) 0 sampleCache 7 =
      some ([⟨110, 114⟩], sampleCache) :=
  (parseHackableMarkers_cache_hit sampleCache 7 [⟨110, 114⟩] rfl sampleResolver (fun _ => 0) 0
    (fun _ => none) sampleResolver sampleResolver pairsMemory (fun _ => 0) 570 0).1

/-- Claim C9: when the cache holds no entry for the key and the scan from the resolved
address terminates, `parseHackableMarkers` returns the markers of that scan and the cache
with that list stored under the unresolved key; every other key is as before. -/
theorem parseHackableMarkers_cache_miss (cache : MarkerMap) (f : Nat)
    (hmiss : cache f = none) (resolve : Nat → Nat) (mem : Memory) (fuel : Nat)
    (out : ScanOutcome) (hscan : scanMarkers mem (resolve f) fuel = some out) :
    parseHackableMarkers resolve mem fuel cache f =
        some (out.markers, cache.assign f out.markers) ∧
      (cache.assign f out.markers) f = some out.markers ∧
      ∀ k, k ≠ f → (cache.assign f out.markers) k = cache k := by
  refine ⟨?_, ?_, ?_⟩
  · simp [parseHackableMarkers, hmiss, hscan, MarkerMap.assign]
  · simp [MarkerMap.assign]
  · intro k hk
    simp [MarkerMap.assign, hk]

theorem parseHackableMarkers_cache_miss_witness :
    parseHackableMarkers sampleResolver pairsMemory 570 (fun _ => none) 7 =
      some ([⟨110, 114⟩, ⟨136, 136⟩],
        MarkerMap.assign (fun _ => none) 7 [⟨110, 114⟩, ⟨136, 136⟩]) :=
  (parseHackableMarkers_cache_miss (fun _ => none) 7 rfl sampleResolver pairsMemory 570
    ⟨[⟨110, 114⟩, ⟨136, 136⟩], false⟩ (by decide)).1

/-! ## Accessors across an activation attempt -/

/-- Claim C11: after `applyCustomCode(text)`, whether it returned true or false (the
null code pointer rejection included), `getAssemblyString` returns `text`, while
`getOriginalAssemblyString`, `getOriginalLength` and `getPointer` return what they
returned before the call. -/
theorem applyCustomCode_accessors (assemble : String → Nat → CompileResult)
    (self : HackableCode) (m : Machine) (text : String) :
    getAssemblyString (applyCustomCode assemble self m text).2.1 = text ∧
      getOriginalAssemblyString (applyCustomCode assemble self m text).2.1 =
        getOriginalAssemblyString self ∧
      getOriginalLength (applyCustomCode assemble self m text).2.1 = getOriginalLength self ∧
      getPointer (applyCustomCode assemble self m text).2.1 = getPointer self := by
  unfold applyCustomCode
  simp only []
  by_cases hp : self.codePointer = 0
  · rw [if_pos hp]
    exact ⟨rfl, rfl, rfl, rfl⟩
  · rw [if_neg hp]
    by_cases hc : (assemble text self.codePointer).hasError = true ∨
        (assemble text self.codePointer).byteCount > self.originalCodeLength
    · rw [if_pos hc]
      exact ⟨rfl, rfl, rfl, rfl⟩
    · rw [if_neg hc]
      exact ⟨rfl, rfl, rfl, rfl⟩

/-- Claim C17, evaluated on the two-byte sample region: right after construction the
stored copy of the original bytes is empty, while the original length is 2 and the live
bytes of the region are `01 02`. -/
theorem ctor_takes_no_snapshot :
    sampleRegion.originalCodeCopy = [] ∧ sampleRegion.originalCodeLength = 2 ∧
      readBytes sampleMemory sampleRegion.codePointer 2 = [0x01, 0x02] := by
  decide

/-- Claim C18: the three tag signatures have the same length, 10 bytes; their first
bytes are `0x57`, `0x56` and `0x52`; and two signatures with the same first byte are the
same signature, so a first byte selects at most one candidate. -/
theorem signatures_same_length_distinct_first_byte :
    StartTagSignature.length = 10 ∧ EndTagSignature.length = 10 ∧
      StopSearchTagSignature.length = 10 ∧ tagSize = 10 ∧
      StartTagSignature.getD 0 0 = 0x57 ∧ EndTagSignature.getD 0 0 = 0x56 ∧
      StopSearchTagSignature.getD 0 0 = 0x52 ∧
      ∀ t1 t2 : Target, t1.signature.getD 0 0 = t2.signature.getD 0 0 → t1 = t2 := by
  refine ⟨rfl, rfl, rfl, rfl, rfl, rfl, rfl, ?_⟩
  intro t1 t2
  cases t1 <;> cases t2 <;> decide

/-! ## The loop invariant at every iteration -/

theorem signatureIndex_of_inv (mem : Memory) (s : ScanState) (h : ScanInv mem s) :
    ∃ k : Nat, k ≤ 9 ∧ s.currentSeek = s.currentBase + k ∧ signatureIndex s = (k : Int) ∧
      (k = 0 ↔ s.targetArray = none) := by
  obtain ⟨k, hk, hseek, htgt⟩ := h
  refine ⟨k, hk, hseek, ?_, ?_⟩
  · have e : ((s.currentBase + k : Nat) : Int) - (s.currentBase : Int) = (k : Int) := by
      push_cast; ring
    rw [signatureIndex, hseek, e]
    unfold toInt32
    omega
  · cases htarget : s.targetArray with
    | none =>
      rw [htarget] at htgt
      simp only at htgt
      simp [htgt]
    | some t =>
      rw [htarget] at htgt
      simp only at htgt
      constructor
      · intro h0; omega
      · intro h0; exact absurd h0 (by simp)

theorem scanStateAfter_succ (mem : Memory) (s0 s1 : ScanState) (n : Nat)
    (h : scanStateAfter mem s0 n = some s1) :
    scanStateAfter mem s0 (n + 1) =
      match scanIteration mem s1 with
      | .next s2 => some s2
      | .done _ => none := by
  simp only [scanStateAfter, h]

theorem scanStateAfter_inv (mem : Memory) (s0 : ScanState) (h0 : ScanInv mem s0) :
    ∀ n s, scanStateAfter mem s0 n = some s →
      ScanInv mem s ∧ s0.currentBase ≤ s.currentBase := by
  intro n
  induction n with
  | zero =>
    intro s h
    simp only [scanStateAfter, Option.some.injEq] at h
    subst h
    exact ⟨h0, le_refl _⟩
  | succ n ih =>
    intro s h
    cases hprev : scanStateAfter mem s0 n with
    | none =>
      simp only [scanStateAfter, hprev] at h
      exact absurd h (by simp)
    | some s1 =>
      rw [scanStateAfter_succ mem s0 s1 n hprev] at h
      obtain ⟨hinv1, hle1⟩ := ih s1 hprev
      have hstep := scanIteration_inv mem s1 hinv1
      cases hit : scanIteration mem s1 with
      | next s2 =>
        rw [hit] at h hstep
        simp only [Option.some.injEq] at h
        subst h
        exact ⟨hstep.1, le_trans hle1 hstep.2⟩
      | done out =>
        rw [hit] at h
        exact absurd h (by simp)

/-- Claim C19: at the top of every iteration of the scan loop started by
`parseHackableMarkers`, `signatureIndex` lies between 0 and `tagSize - 1 = 9`, it is 0
exactly when no target signature is selected, it indexes inside the selected signature,
and the base cursor is at or after the scan origin and is not decreased by the
iteration. -/
theorem scan_loop_invariant (mem : Memory) (o n : Nat) (s : ScanState)
    (h : scanStateAfter mem (initialScanState o) n = some s) :
    0 ≤ signatureIndex s ∧ signatureIndex s ≤ tagSize - 1 ∧ tagSize - 1 = 9 ∧
      (signatureIndex s = 0 ↔ s.targetArray = none) ∧
      (∀ t, s.targetArray = some t → (signatureIndex s).toNat < t.signature.length) ∧
      o ≤ s.currentBase ∧
      ∀ s1, scanStateAfter mem (initialScanState o) (n + 1) = some s1 →
        s.currentBase ≤ s1.currentBase := by
  obtain ⟨hinv, hle⟩ := scanStateAfter_inv mem (initialScanState o) (scanInv_initial mem o) n s h
  obtain ⟨k, hk, _, hidx, hnone⟩ := signatureIndex_of_inv mem s hinv
  have hsize : tagSize - 1 = 9 := by decide
  refine ⟨by rw [hidx]; omega, by rw [hidx, hsize]; omega, hsize, ?_, ?_, hle, ?_⟩
  · rw [hidx, ← hnone]
    omega
  · intro t _
    rw [hidx, signature_length]
    simp only [Int.toNat_ofNat]
    omega
  · intro s1 h1
    rw [scanStateAfter_succ mem (initialScanState o) s n h] at h1
    have hstep := scanIteration_inv mem s hinv
    cases hit : scanIteration mem s with
    | next s2 =>
      rw [hit] at h1 hstep
      simp only [Option.some.injEq] at h1
      subst h1
      exact hstep.2
    | done out =>
      rw [hit] at h1
      exact absurd h1 (by simp)

theorem scan_loop_invariant_witness :
    0 ≤ signatureIndex ⟨100, 103, some .StartTag, 0, []⟩ ∧
      signatureIndex ⟨100, 103, some .StartTag, 0, []⟩ ≤ tagSize - 1 ∧ tagSize - 1 = 9 ∧
      (signatureIndex ⟨100, 103, some .StartTag, 0, []⟩ = 0 ↔
        (⟨100, 103, some .StartTag, 0, []⟩ : ScanState).targetArray = none) ∧
      (∀ t, (⟨100, 103, some .StartTag, 0, []⟩ : ScanState).targetArray = some t →
        (signatureIndex ⟨100, 103, some .StartTag, 0, []⟩).toNat < t.signature.length) ∧
      100 ≤ (⟨100, 103, some .StartTag, 0, []⟩ : ScanState).currentBase ∧
      ∀ s1, scanStateAfter pairsMemory (initialScanState 100) (3 + 1) = some s1 →
        (⟨100, 103, some .StartTag, 0, []⟩ : ScanState).currentBase ≤ s1.currentBase :=
  scan_loop_invariant pairsMemory 100 3 ⟨100, 103, some .StartTag, 0, []⟩ (by decide)

/-! ## What a returned scan is made of -/

theorem scanLoop_mono (mem : Memory) :
    ∀ fuel s out, scanLoop mem fuel s = some out →
      ∀ k, scanLoop mem (fuel + k) s = some out := by
  intro fuel
  induction fuel with
  | zero =>
    intro s out h
    simp [scanLoop] at h
  | succ fuel ih =>
    intro s out h k
    have e : fuel + 1 + k = (fuel + k) + 1 := by omega
    rw [scanLoop_succ] at h
    rw [e, scanLoop_succ]
    cases hit : scanIteration mem s with
    | next s1 =>
      rw [hit] at h
      exact ih s1 out h k
    | done out1 =>
      rw [hit] at h
      exact h

/-- A scan that returns has walked the candidate positions from the origin up to a
Stop-Search tag. -/
theorem scanMarkers_some_eq (mem : Memory) (o fuel : Nat) (out : ScanOutcome)
    (h : scanMarkers mem o fuel = some out) :
    ∃ r, o ≤ r ∧ tagAt mem r = some .StopSearchTag ∧
      out = ⟨scanPositions mem (r - o) o 0 [], false⟩ := by
  obtain ⟨_, r, hr, hstop⟩ := scanLoop_some mem fuel (initialScanState o) out
    (scanInv_initial mem o) h
  have hr0 : o ≤ r := hr
  have hor : o + (r - o) = r := by omega
  refine ⟨r, hr0, hstop, ?_⟩
  have h1 := scanLoop_mono mem fuel (initialScanState o) out h (10 * (r - o + 1))
  have h2 := scanLoop_positions mem (r - o) o 0 [] (by rw [hor]; exact hstop)
    (fuel + 10 * (r - o + 1)) (by omega)
  have h3 : scanLoop mem (fuel + 10 * (r - o + 1)) (initialScanState o) =
      some ⟨scanPositions mem (r - o) o 0 [], false⟩ := h2
  rw [h1] at h3
  exact Option.some.inj h3

theorem tagAt_eq_some_iff (mem : Memory) (b : Nat) (t : Target) :
    tagAt mem b = some t ↔ matchesAt mem b t.signature = true := by
  constructor
  · intro h
    unfold tagAt at h
    by_cases hS : matchesAt mem b StartTagSignature = true
    · rw [if_pos hS] at h
      cases Option.some.inj h
      exact hS
    · rw [if_neg hS] at h
      by_cases hE : matchesAt mem b EndTagSignature = true
      · rw [if_pos hE] at h
        cases Option.some.inj h
        exact hE
      · rw [if_neg hE] at h
        by_cases hP : matchesAt mem b StopSearchTagSignature = true
        · rw [if_pos hP] at h
          cases Option.some.inj h
          exact hP
        · rw [if_neg hP] at h
          exact absurd h (by simp)
  · intro h
    rw [tagAt_of_first mem b t (matchesAt_first mem b t h), if_pos h]

theorem readBytes_eq_iff (mem : Memory) (b : Nat) (sig : List Nat) :
    readBytes mem b sig.length = sig ↔ matchesAt mem b sig = true := by
  rw [matchesAt_iff]
  constructor
  · intro h i hi
    have h1 : (readBytes mem b sig.length).getD i 0 = sig.getD i 0 := by rw [h]
    simpa [readBytes, hi, List.getD_eq_getElem?_getD] using h1
  · intro h
    apply List.ext_getElem
    · simp [readBytes]
    · intro i h1 h2
      have hi : i < sig.length := h2
      have := h i hi
      simp [readBytes, hi, List.getD_eq_getElem?_getD] at this ⊢
      exact this

theorem tagAt_iff_readBytes (mem : Memory) (b : Nat) (t : Target) :
    tagAt mem b = some t ↔ readBytes mem b 10 = t.signature := by
  rw [tagAt_eq_some_iff, ← readBytes_eq_iff, signature_length]

/-- No byte of a tag after its first is the first byte of a tag: no tag begins inside
another tag. -/
theorem tag_no_overlap (mem : Memory) (b d : Nat) (t : Target) (h : tagAt mem b = some t)
    (hd1 : 1 ≤ d) (hd9 : d ≤ 9) : tagAt mem (b + d) = none := by
  have hm := (matchesAt_iff mem b t.signature).1 ((tagAt_eq_some_iff mem b t).1 h) d
    (by rw [signature_length]; omega)
  apply tagAt_of_no_first
  intro t1
  rw [hm]
  have key : ∀ d, d < 10 → 1 ≤ d → t.signature.getD d 0 ≠ t1.signature.getD 0 0 := by
    cases t <;> cases t1 <;> decide
  exact key d (by omega) hd1

theorem scanPositions_acc (mem : Memory) :
    ∀ n b nx ms, scanPositions mem n b nx ms = ms ++ scanPositions mem n b nx [] := by
  intro n
  induction n with
  | zero => intro b nx ms; simp [scanPositions]
  | succ n ih =>
    intro b nx ms
    cases htag : tagAt mem b with
    | none =>
      simp only [scanPositions, positionStep, htag]
      exact ih (b + 1) nx ms
    | some t =>
      cases t with
      | StartTag =>
        simp only [scanPositions, positionStep, htag, onFullMatch]
        exact ih (b + 1) (b + 10) ms
      | EndTag =>
        simp only [scanPositions, positionStep, htag, onFullMatch]
        by_cases hnx : nx = 0
        · simp only [hnx, ne_eq, not_true_eq_false, if_false]
          exact ih (b + 1) 0 ms
        · simp only [ne_eq, hnx, not_false_eq_true, if_true, List.nil_append]
          rw [ih (b + 1) 0 (ms ++ [(⟨nx, b⟩ : HackableCodeMarkers)]),
            ih (b + 1) 0 [(⟨nx, b⟩ : HackableCodeMarkers)], List.append_assoc]
      | StopSearchTag =>
        simp [scanPositions, positionStep, htag, onFullMatch]

/-- Claim C14: for every marker `(s, e)` the scan returns, the 10 bytes before `s` are
the Start tag, the 10 bytes from `e` are the End tag, and no complete Start, End or
Stop-Search tag begins strictly between `s - 10` and `e`. -/
theorem marker_delimited_by_tags (mem : Memory) (o fuel : Nat) (out : ScanOutcome)
    (h : scanMarkers mem o fuel = some out) (m : HackableCodeMarkers)
    (hm : m ∈ out.markers) :
    o + 10 ≤ m.start ∧ readBytes mem (m.start - 10) 10 = StartTagSignature ∧
      readBytes mem m.end_ 10 = EndTagSignature ∧ m.start - 10 < m.end_ ∧
      ∀ x t, m.start - 10 < x → x < m.end_ → readBytes mem x 10 ≠ Target.signature t := by
  obtain ⟨r, _, _, hout⟩ := scanMarkers_some_eq mem o fuel out h
  rw [hout] at hm
  rcases scanPositions_mem mem (r - o) o 0 [] m hm with
    h1 | ⟨h1, _⟩ | ⟨p, hp1, hp2, _, hp4, hp5, hp6, hp7⟩
  · simp at h1
  · exact absurd rfl h1
  · have hpe : m.start - 10 = p := by omega
    rw [hpe]
    refine ⟨by omega, (tagAt_iff_readBytes mem p .StartTag).1 hp5,
      (tagAt_iff_readBytes mem m.end_ .EndTag).1 hp6, hp2, ?_⟩
    intro x t hx1 hx2 hread
    have hsome := (tagAt_iff_readBytes mem x t).2 hread
    rw [hp7 x hx1 hx2] at hsome
    exact Option.noConfusion hsome

theorem marker_delimited_by_tags_witness :
    90 + 10 ≤ (⟨110, 114⟩ : HackableCodeMarkers).start ∧
      readBytes pairsMemory ((⟨110, 114⟩ : HackableCodeMarkers).start - 10) 10 =
        StartTagSignature ∧
      readBytes pairsMemory (⟨110, 114⟩ : HackableCodeMarkers).end_ 10 = EndTagSignature ∧
      (⟨110, 114⟩ : HackableCodeMarkers).start - 10 < (⟨110, 114⟩ : HackableCodeMarkers).end_ ∧
      ∀ x t, (⟨110, 114⟩ : HackableCodeMarkers).start - 10 < x →
        x < (⟨110, 114⟩ : HackableCodeMarkers).end_ →
        readBytes pairsMemory x 10 ≠ Target.signature t :=
  marker_delimited_by_tags pairsMemory 90 570 ⟨[⟨110, 114⟩, ⟨136, 136⟩], false⟩ (by decide)
    ⟨110, 114⟩ (by decide)

/-! ## The pairing rule -/

theorem scanPositions_subset (mem : Memory) (n b nx : Nat) (ms : List HackableCodeMarkers)
    (m : HackableCodeMarkers) (hm : m ∈ ms) : m ∈ scanPositions mem n b nx ms := by
  rw [scanPositions_acc]
  exact List.mem_append_left _ hm

/-- With a start pending, the first End tag ahead is turned into a marker. -/
theorem scanPositions_pending_emits (mem : Memory) (q : Nat)
    (hend : tagAt mem q = some .EndTag) :
    ∀ n b nx ms, nx ≠ 0 → b ≤ q → q < b + n →
      (∀ x, b ≤ x → x < q → tagAt mem x ≠ some .EndTag) →
      (∀ x, b ≤ x → x < q → tagAt mem x ≠ some .StopSearchTag) →
      ∃ m ∈ scanPositions mem n b nx ms, m.end_ = q := by
  intro n
  induction n with
  | zero => intro b nx ms _ h1 h2; omega
  | succ n ih =>
    intro b nx ms hnx hbq hqn hnoend hnostop
    by_cases hb : b = q
    · subst hb
      refine ⟨⟨nx, b⟩, ?_, rfl⟩
      simp only [scanPositions, positionStep, hend, onFullMatch, ne_eq, hnx,
        not_false_eq_true, if_true]
      exact scanPositions_subset mem n (b + 1) 0 _ _ (by simp)
    · have hlt : b < q := by omega
      have hnoend1 : ∀ x, b + 1 ≤ x → x < q → tagAt mem x ≠ some .EndTag :=
        fun x h1 h2 => hnoend x (by omega) h2
      have hnostop1 : ∀ x, b + 1 ≤ x → x < q → tagAt mem x ≠ some .StopSearchTag :=
        fun x h1 h2 => hnostop x (by omega) h2
      cases htag : tagAt mem b with
      | none =>
        simp only [scanPositions, positionStep, htag]
        exact ih (b + 1) nx ms hnx (by omega) (by omega) hnoend1 hnostop1
      | some t =>
        cases t with
        | StartTag =>
          simp only [scanPositions, positionStep, htag, onFullMatch]
          exact ih (b + 1) (b + 10) ms (by omega) (by omega) (by omega) hnoend1 hnostop1
        | EndTag => exact absurd htag (hnoend b (le_refl b) hlt)
        | StopSearchTag => exact absurd htag (hnostop b (le_refl b) hlt)

/-- A Start tag with no End tag between it and the End tag at `q`, and no Stop-Search
tag before `q`, makes the End tag at `q` produce a marker. -/
theorem scanPositions_emits (mem : Memory) (p q : Nat) (hpq : p < q)
    (hstart : tagAt mem p = some .StartTag) (hend : tagAt mem q = some .EndTag)
    (hnoend : ∀ x, p < x → x < q → tagAt mem x ≠ some .EndTag) :
    ∀ n b nx ms, b ≤ p → q < b + n →
      (∀ x, b ≤ x → x < q → tagAt mem x ≠ some .StopSearchTag) →
      ∃ m ∈ scanPositions mem n b nx ms, m.end_ = q := by
  intro n
  induction n with
  | zero => intro b nx ms h1 h2; omega
  | succ n ih =>
    intro b nx ms hbp hqn hnostop
    have hnostop1 : ∀ x, b + 1 ≤ x → x < q → tagAt mem x ≠ some .StopSearchTag :=
      fun x h1 h2 => hnostop x (by omega) h2
    by_cases hb : b = p
    · subst hb
      simp only [scanPositions, positionStep, hstart, onFullMatch]
      exact scanPositions_pending_emits mem q hend n (b + 1) (b + 10) ms (by omega) (by omega)
        (by omega) (fun x h1 h2 => hnoend x (by omega) h2) hnostop1
    · have hlt : b < p := by omega
      cases htag : tagAt mem b with
      | none =>
        simp only [scanPositions, positionStep, htag]
        exact ih (b + 1) nx ms (by omega) (by omega) hnostop1
      | some t =>
        cases t with
        | StartTag =>
          simp only [scanPositions, positionStep, htag, onFullMatch]
          exact ih (b + 1) (b + 10) ms (by omega) (by omega) hnostop1
        | EndTag =>
          simp only [scanPositions, positionStep, htag, onFullMatch]
          exact ih (b + 1) 0 _ (by omega) (by omega) hnostop1
        | StopSearchTag => exact absurd htag (hnostop b (le_refl b) (by omega))

/-- Claim C15: on a memory where the scan returns (first Stop-Search tag at `r`), an End
tag at `q`, between the origin and `r`, produces a marker exactly when some Start tag
lies between the origin and `q` with no End tag between that Start tag and `q`; that
marker is `(p + 10, q)` for the latest Start tag `p` before `q`. -/
theorem end_tag_pairs_with_latest_start (mem : Memory) (o q r : Nat) (hoq : o ≤ q)
    (hqr : q < r) (hend : tagAt mem q = some .EndTag)
    (hstop : tagAt mem r = some .StopSearchTag)
    (hfirst : ∀ x, o ≤ x → x < r → tagAt mem x ≠ some .StopSearchTag)
    (fuel : Nat) (hfuel : 10 * (r - o + 1) ≤ fuel) :
    ∃ out, scanMarkers mem o fuel = some out ∧
      ((∃ m ∈ out.markers, m.end_ = q) ↔
        ∃ p, o ≤ p ∧ p < q ∧ tagAt mem p = some .StartTag ∧
          ∀ x, p < x → x < q → tagAt mem x ≠ some .EndTag) ∧
      ∀ m ∈ out.markers, m.end_ = q →
        ∃ p, m.start = p + 10 ∧ o ≤ p ∧ p < q ∧ tagAt mem p = some .StartTag ∧
          ∀ x, p < x → x < q → tagAt mem x ≠ some .StartTag := by
  have hr : o + (r - o) = r := by omega
  refine ⟨⟨scanPositions mem (r - o) o 0 [], false⟩, ?_, ⟨?_, ?_⟩, ?_⟩
  · exact scanLoop_positions mem (r - o) o 0 [] (by rw [hr]; exact hstop) fuel hfuel
  · rintro ⟨m, hm, hmq⟩
    rcases scanPositions_mem mem (r - o) o 0 [] m hm with
      h1 | ⟨h1, _⟩ | ⟨p, hp1, hp2, _, _, hp5, _, hp7⟩
    · simp at h1
    · exact absurd rfl h1
    · refine ⟨p, hp1, by omega, hp5, fun x hx1 hx2 => ?_⟩
      rw [hp7 x hx1 (by omega)]
      exact fun hc => Option.noConfusion hc
  · rintro ⟨p, hp1, hp2, hp3, hp4⟩
    exact scanPositions_emits mem p q hp2 hp3 hend hp4 (r - o) o 0 [] hp1 (by omega)
      (fun x h1 h2 => hfirst x h1 (by omega))
  · intro m hm hmq
    rcases scanPositions_mem mem (r - o) o 0 [] m hm with
      h1 | ⟨h1, _⟩ | ⟨p, hp1, hp2, _, hp4, hp5, _, hp7⟩
    · simp at h1
    · exact absurd rfl h1
    · refine ⟨p, hp4, hp1, by omega, hp5, fun x hx1 hx2 => ?_⟩
      rw [hp7 x hx1 (by omega)]
      exact fun hc => Option.noConfusion hc

theorem end_tag_pairs_with_latest_start_witness :
    ∃ out, scanMarkers overwriteMemory 90 590 = some out ∧
      ((∃ m ∈ out.markers, m.end_ = 124) ↔
        ∃ p, 90 ≤ p ∧ p < 124 ∧ tagAt overwriteMemory p = some .StartTag ∧
          ∀ x, p < x → x < 124 → tagAt overwriteMemory x ≠ some .EndTag) ∧
      ∀ m ∈ out.markers, m.end_ = 124 →
        ∃ p, m.start = p + 10 ∧ 90 ≤ p ∧ p < 124 ∧ tagAt overwriteMemory p = some .StartTag ∧
          ∀ x, p < x → x < 124 → tagAt overwriteMemory x ≠ some .StartTag :=
  end_tag_pairs_with_latest_start overwriteMemory 90 124 148 (by decide) (by decide)
    (by decide) (by decide)
    (fun x h1 h2 =>
      (by decide : ∀ x, x < 148 → 90 ≤ x →
        tagAt overwriteMemory x ≠ some .StopSearchTag) x h2 h1)
    590 (by decide)

/-! ## Order and extent of the markers -/

theorem scanPositions_pairwise (mem : Memory) :
    ∀ n b nx, List.Pairwise (fun a c : HackableCodeMarkers => a.end_ < c.start)
      (scanPositions mem n b nx []) := by
  intro n
  induction n with
  | zero => intro b nx; simp [scanPositions]
  | succ n ih =>
    intro b nx
    cases htag : tagAt mem b with
    | none =>
      simp only [scanPositions, positionStep, htag]
      exact ih (b + 1) nx
    | some t =>
      cases t with
      | StartTag =>
        simp only [scanPositions, positionStep, htag, onFullMatch]
        exact ih (b + 1) (b + 10)
      | EndTag =>
        simp only [scanPositions, positionStep, htag, onFullMatch]
        by_cases hnx : nx = 0
        · simp only [hnx, ne_eq, not_true_eq_false, if_false]
          exact ih (b + 1) 0
        · simp only [ne_eq, hnx, not_false_eq_true, if_true, List.nil_append]
          rw [scanPositions_acc, List.singleton_append, List.pairwise_cons]
          refine ⟨?_, ih (b + 1) 0⟩
          intro c hc
          rcases scanPositions_mem mem n (b + 1) 0 [] c hc with
            h1 | ⟨h1, _⟩ | ⟨p, hp1, _, _, hp4, _⟩
          · simp at h1
          · exact absurd rfl h1
          · show b < c.start
            omega
      | StopSearchTag =>
        simp [scanPositions, positionStep, htag, onFullMatch]

theorem toInt32_of_small (z : Int) (h0 : 0 ≤ z) (h1 : z < 2 ^ 31) : toInt32 z = z := by
  unfold toInt32
  omega

/-- The markers of the huge-region memory. -/
theorem hugeRegionMemory_scan :
    scanMarkers hugeRegionMemory 100 21474836690 =
      some ⟨[⟨110, 2147483758⟩], false⟩ := by
  have hfill : ∀ x, 110 ≤ x → x < 2147483758 → hugeRegionMemory x = 0 := by
    intro x h1 h2
    simp only [hugeRegionMemory, place, StartTagSignature, EndTagSignature,
      StopSearchTagSignature, List.length_cons, List.length_nil]
    rw [if_neg (by omega), if_neg (by omega), if_neg (by omega)]
  have hfirst : ∀ t : Target, (0 : Nat) ≠ t.signature.getD 0 0 := by
    intro t
    cases t <;> decide
  have hhead : tagOccurrences hugeRegionMemory 100 110 = [(100, .StartTag)] := by decide
  have hmid : tagOccurrences hugeRegionMemory 110 2147483758 = [] := by
    apply tagOccurrences_eq_nil
    intro x h1 h2
    apply tagAt_of_no_first
    intro t
    rw [hfill x h1 h2]
    exact hfirst t
  have htail : tagOccurrences hugeRegionMemory 2147483758 2147483768 =
      [(2147483758, .EndTag)] := by decide
  have hstop : tagAt hugeRegionMemory 2147483768 = some .StopSearchTag := by decide
  rw [scanMarkers_eq_pairOccurrences hugeRegionMemory 100 2147483768 (by decide) hstop
      21474836690 (by decide),
    tagOccurrences_append hugeRegionMemory 100 110 2147483768 (by decide) (by decide),
    tagOccurrences_append hugeRegionMemory 110 2147483758 2147483768 (by decide) (by decide),
    hhead, hmid, htail]
  rfl

/-- Claim C20 fails as stated in its consequence for the created regions: the scan of
the huge-region memory returns the marker `(110, 110 + 2 ^ 31)`, whose start is below its
end, and the region constructed over it has the negative original length `-2 ^ 31`. -/
theorem huge_marker_negative_original_length :
    scanMarkers hugeRegionMemory 100 21474836690 =
        some ⟨[⟨110, 2147483758⟩], false⟩ ∧
      (⟨110, 2147483758⟩ : HackableCodeMarkers).start ≤
        (⟨110, 2147483758⟩ : HackableCodeMarkers).end_ ∧
      getOriginalLength (ctor sampleDisassemble hugeRegionMemory 110 2147483758) =
        -2147483648 :=
  ⟨hugeRegionMemory_scan, by decide, by decide⟩

/-- Claim C20, amended: the markers a scan returns satisfy `s_i ≤ e_i`, consecutive
markers (and any earlier and later marker) satisfy `e_i < s_j`, so the regions are in
strictly increasing address order and pairwise disjoint; and every region created over a
marker of extent below `2 ^ 31` has the non-negative original length `e_i - s_i`. -/
theorem markers_ordered_disjoint (mem : Memory) (o fuel : Nat) (out : ScanOutcome)
    (h : scanMarkers mem o fuel = some out) :
    (∀ m ∈ out.markers, m.start ≤ m.end_) ∧
      List.Chain' (fun a c : HackableCodeMarkers => a.end_ < c.start) out.markers ∧
      List.Pairwise (fun a c : HackableCodeMarkers => a.end_ < c.start) out.markers ∧
      ∀ m ∈ out.markers, m.end_ - m.start < 2 ^ 31 →
        ∀ disassemble : Memory → Nat → Int → String,
          0 ≤ getOriginalLength (ctor disassemble mem m.start m.end_) ∧
            getOriginalLength (ctor disassemble mem m.start m.end_) =
              ((m.end_ - m.start : Nat) : Int) := by
  obtain ⟨r, _, _, hout⟩ := scanMarkers_some_eq mem o fuel out h
  have hle : ∀ m ∈ out.markers, m.start ≤ m.end_ := by
    intro m hm
    rw [hout] at hm
    rcases scanPositions_mem mem (r - o) o 0 [] m hm with
      h1 | ⟨h1, _⟩ | ⟨p, _, hp2, _, hp4, hp5, hp6, _⟩
    · simp at h1
    · exact absurd rfl h1
    · by_contra hlt
      have hd : m.end_ = p + (m.end_ - p) := by omega
      have hnone := tag_no_overlap mem p (m.end_ - p) .StartTag hp5 (by omega) (by omega)
      rw [← hd, hp6] at hnone
      exact Option.noConfusion hnone
  have hpw : List.Pairwise (fun a c : HackableCodeMarkers => a.end_ < c.start)
      out.markers := by
    rw [hout]
    exact scanPositions_pairwise mem (r - o) o 0
  refine ⟨hle, List.Pairwise.chain' hpw, hpw, ?_⟩
  intro m hm hsmall disassemble
  have hse := hle m hm
  have hlen : getOriginalLength (ctor disassemble mem m.start m.end_) =
      ((m.end_ - m.start : Nat) : Int) := by
    simp only [getOriginalLength, ctor]
    rw [toInt32_of_small _ (by omega) (by omega)]
    omega
  exact ⟨by rw [hlen]; omega, hlen⟩

theorem markers_ordered_disjoint_witness :
    (∀ m ∈ (⟨[⟨110, 114⟩, ⟨136, 136⟩], false⟩ : ScanOutcome).markers, m.start ≤ m.end_) ∧
      List.Chain' (fun a c : HackableCodeMarkers => a.end_ < c.start)
        (⟨[⟨110, 114⟩, ⟨136, 136⟩], false⟩ : ScanOutcome).markers ∧
      List.Pairwise (fun a c : HackableCodeMarkers => a.end_ < c.start)
        (⟨[⟨110, 114⟩, ⟨136, 136⟩], false⟩ : ScanOutcome).markers ∧
      ∀ m ∈ (⟨[⟨110, 114⟩, ⟨136, 136⟩], false⟩ : ScanOutcome).markers,
        m.end_ - m.start < 2 ^ 31 →
        ∀ disassemble : Memory → Nat → Int → String,
          0 ≤ getOriginalLength (ctor disassemble pairsMemory m.start m.end_) ∧
            getOriginalLength (ctor disassemble pairsMemory m.start m.end_) =
              ((m.end_ - m.start : Nat) : Int) :=
  markers_ordered_disjoint pairsMemory 90 570 ⟨[⟨110, 114⟩, ⟨136, 136⟩], false⟩ (by decide)

/-! ## Region factory -/

theorem parseHackableMarkers_of_scan (resolve : Nat → Nat) (mem : Memory) (fuel : Nat)
    (cache : MarkerMap) (f a : Nat) (out : ScanOutcome) (hmiss : cache f = none)
    (ha : resolve f = a) (hscan : scanMarkers mem a fuel = some out) :
    parseHackableMarkers resolve mem fuel cache f =
      some (out.markers, cache.assign f out.markers) := by
  simp [parseHackableMarkers, hmiss, ha, hscan, MarkerMap.assign]

theorem create_of_markers (resolve : Nat → Nat) (disassemble : Memory → Nat → Int → String)
    (mem : Memory) (fuel : Nat) (cache : MarkerMap) (f : Nat)
    (markers : List HackableCodeMarkers) (cache1 : MarkerMap)
    (h : parseHackableMarkers resolve mem fuel cache f = some (markers, cache1)) :
    create resolve disassemble mem fuel cache f =
      some (markers.map fun marker => ctor disassemble mem marker.start marker.end_,
        cache1) := by
  simp only [create, parseHackables, h]

/-- Claim C12 fails as stated for the original length: `create` on the huge-region
memory builds one region over the marker `(110, 110 + 2 ^ 31)`, and that region reports
the original length `-2 ^ 31`, not `end - start = 2 ^ 31`. -/
theorem create_region_length_wraps :
    parseHackableMarkers id hugeRegionMemory 21474836690 (fun _ => none) 100 =
        some ([⟨110, 2147483758⟩],
          MarkerMap.assign (fun _ => none) 100 [⟨110, 2147483758⟩]) ∧
      create id sampleDisassemble hugeRegionMemory 21474836690 (fun _ => none) 100 =
        some ([ctor sampleDisassemble hugeRegionMemory 110 2147483758],
          MarkerMap.assign (fun _ => none) 100 [⟨110, 2147483758⟩]) ∧
      getPointer (ctor sampleDisassemble hugeRegionMemory 110 2147483758) = 110 ∧
      getOriginalLength (ctor sampleDisassemble hugeRegionMemory 110 2147483758) =
        -2147483648 ∧
      (2147483758 : Int) - 110 = 2147483648 := by
  have hp := parseHackableMarkers_of_scan id hugeRegionMemory 21474836690 (fun _ => none)
    100 100 ⟨[⟨110, 2147483758⟩], false⟩ rfl rfl hugeRegionMemory_scan
  exact ⟨hp, create_of_markers id sampleDisassemble hugeRegionMemory 21474836690
    (fun _ => none) 100 _ _ hp, by decide, by decide, by decide⟩

/-- Claim C12, amended: `create` returns exactly one region per marker of
`parseHackableMarkers`, in marker order; the region of a marker has the marker's start
as pointer, the 32 bit truncation of `end - start` as original length, which is
`end - start` itself whenever `start ≤ end` and the extent is below `2 ^ 31`, and both
assembly strings equal to the disassembly of that many bytes at the marker's start. -/
theorem create_one_region_per_marker (resolve : Nat → Nat)
    (disassemble : Memory → Nat → Int → String) (mem : Memory) (fuel : Nat)
    (cache : MarkerMap) (f : Nat) (markers : List HackableCodeMarkers) (cache1 : MarkerMap)
    (h : parseHackableMarkers resolve mem fuel cache f = some (markers, cache1)) :
    create resolve disassemble mem fuel cache f =
        some (markers.map fun marker => ctor disassemble mem marker.start marker.end_,
          cache1) ∧
      (markers.map fun marker => ctor disassemble mem marker.start marker.end_).length =
        markers.length ∧
      ∀ marker : HackableCodeMarkers,
        getPointer (ctor disassemble mem marker.start marker.end_) = marker.start ∧
        getOriginalLength (ctor disassemble mem marker.start marker.end_) =
          toInt32 ((marker.end_ : Int) - (marker.start : Int)) ∧
        (marker.start ≤ marker.end_ → marker.end_ - marker.start < 2 ^ 31 →
          getOriginalLength (ctor disassemble mem marker.start marker.end_) =
            (marker.end_ : Int) - (marker.start : Int)) ∧
        getAssemblyString (ctor disassemble mem marker.start marker.end_) =
          disassemble mem marker.start
            (getOriginalLength (ctor disassemble mem marker.start marker.end_)) ∧
        getOriginalAssemblyString (ctor disassemble mem marker.start marker.end_) =
          getAssemblyString (ctor disassemble mem marker.start marker.end_) := by
  refine ⟨create_of_markers resolve disassemble mem fuel cache f markers cache1 h,
    by simp, ?_⟩
  · intro marker
    refine ⟨rfl, rfl, ?_, rfl, rfl⟩
    intro hle hsmall
    simp only [getOriginalLength, ctor]
    exact toInt32_of_small _ (by omega) (by omega)

theorem create_one_region_per_marker_witness :
    create sampleResolver sampleDisassemble (fun _ => 0) 0 sampleCache 7 =
      some (([⟨110, 114⟩] : List HackableCodeMarkers).map fun marker =>
        ctor sampleDisassemble (fun _ => 0) marker.start marker.end_, sampleCache) :=
  (create_one_region_per_marker sampleResolver sampleDisassemble (fun _ => 0) 0 sampleCache 7
    [⟨110, 114⟩] sampleCache rfl).1

/-! ## The matcher that resumes just past a matched tag -/

theorem skipLoop_succ (mem : Memory) (fuel : Nat) (s : ScanState) :
    skipLoop mem (fuel + 1) s = contSkipLoop mem fuel (skipIteration mem s) := by
  simp only [skipLoop, contSkipLoop]

theorem skipIteration_matching (mem : Memory) (t : Target) (b k nx : Nat)
    (ms : List HackableCodeMarkers) (hk : k ≤ 9) :
    skipIteration mem ⟨b, b + k, some t, nx, ms⟩ =
      if mem (b + k) = t.signature.getD k 0 then
        if k = 9 then onFullMatchSkip t b nx ms else .next ⟨b, b + k + 1, some t, nx, ms⟩
      else .next ⟨b + 1, b + 1, none, nx, ms⟩ := by
  have h1 : toInt32 ((b : Int) + (k : Int) - (b : Int)) = (k : Int) := by
    have e : (b : Int) + (k : Int) - (b : Int) = (k : Int) := by ring
    rw [e]
    unfold toInt32
    omega
  have h2 : ¬ ((k : Int) > 4096) := by omega
  have h5 : ((k : Int) = 9) ↔ k = 9 := by omega
  have h4 : ((0 : Nat) : Int) + 1 + 1 + 1 + 1 + 1 + 1 + 1 + 1 + 1 + 1 - 1 = 9 := by norm_num
  simp only [skipIteration, stopSearchingAfterXBytesFailSafe,
    tagSize, StartTagSignature, List.length_cons, List.length_nil, resetSearch, resumePastTag,
    Nat.cast_add, Nat.cast_one, h4, Nat.cast_inj, Nat.cast_ofNat, ne_eq, ite_not, h1, h2,
    if_false, Int.toNat_ofNat, h5]
  by_cases hm : mem (b + k) = t.signature.getD k 0
  · rw [if_pos hm, if_pos hm]
    by_cases h9 : k = 9
    · subst h9
      rw [if_pos rfl, if_pos rfl]
      cases t
      · rfl
      · simp only [onFullMatchSkip]
        by_cases hnx : nx = 0
        · simp [hnx]
        · simp [hnx]
      · rfl
    · rw [if_neg h9, if_neg h9]
  · rw [if_neg hm, if_neg hm]

theorem skipIteration_idle (mem : Memory) (b nx : Nat) (ms : List HackableCodeMarkers) :
    skipIteration mem ⟨b, b, none, nx, ms⟩ =
      if mem b = 0x57 then .next ⟨b, b + 1, some .StartTag, nx, ms⟩
      else if mem b = 0x56 then .next ⟨b, b + 1, some .EndTag, nx, ms⟩
      else if mem b = 0x52 then .next ⟨b, b + 1, some .StopSearchTag, nx, ms⟩
      else .next ⟨b + 1, b + 1, none, nx, ms⟩ := by
  have h0 : toInt32 0 = 0 := by decide
  simp [skipIteration, stopSearchingAfterXBytesFailSafe, StartTagSignature, EndTagSignature,
    StopSearchTagSignature, h0]

theorem skip_run_full (mem : Memory) (t : Target) (b nx : Nat)
    (ms : List HackableCodeMarkers) :
    ∀ d k, k + d = 9 →
      (∀ i, k ≤ i → i ≤ 9 → mem (b + i) = t.signature.getD i 0) →
      ∀ fuel, skipLoop mem (fuel + (d + 1)) ⟨b, b + k, some t, nx, ms⟩ =
        contSkipLoop mem fuel (onFullMatchSkip t b nx ms) := by
  intro d
  induction d with
  | zero =>
    intro k hk hall fuel
    have hk9 : k = 9 := by omega
    subst hk9
    rw [skipLoop_succ, skipIteration_matching mem t b 9 nx ms (le_refl 9),
      if_pos (hall 9 (le_refl 9) (le_refl 9)), if_pos rfl]
  | succ d ih =>
    intro k hk hall fuel
    have hk9 : k ≠ 9 := by omega
    have hstep : fuel + (d + 1 + 1) = (fuel + (d + 1)) + 1 := by omega
    rw [hstep, skipLoop_succ, skipIteration_matching mem t b k nx ms (by omega),
      if_pos (hall k (le_refl k) (by omega)), if_neg hk9]
    exact ih (k + 1) (by omega) (fun i h1 h2 => hall i (by omega) h2) fuel

theorem skip_run_mismatch (mem : Memory) (t : Target) (b nx : Nat)
    (ms : List HackableCodeMarkers) :
    ∀ d k, k + d = 9 →
      (∃ i, k ≤ i ∧ i ≤ 9 ∧ mem (b + i) ≠ t.signature.getD i 0) →
      ∃ j, 1 ≤ j ∧ j ≤ d + 1 ∧ ∀ fuel,
        skipLoop mem (fuel + j) ⟨b, b + k, some t, nx, ms⟩ =
          skipLoop mem fuel ⟨b + 1, b + 1, none, nx, ms⟩ := by
  intro d
  induction d with
  | zero =>
    intro k hk hex
    obtain ⟨i, hi1, hi2, hne⟩ := hex
    have hi : i = k := by omega
    subst hi
    refine ⟨1, le_refl 1, le_refl 1, fun fuel => ?_⟩
    rw [skipLoop_succ, skipIteration_matching mem t b i nx ms (by omega), if_neg hne]
    rfl
  | succ d ih =>
    intro k hk hex
    by_cases hm : mem (b + k) = t.signature.getD k 0
    · obtain ⟨i, hi1, hi2, hne⟩ := hex
      have hik : i ≠ k := fun h => hne (h ▸ hm)
      obtain ⟨j, hj1, hj2, hj⟩ := ih (k + 1) (by omega) ⟨i, by omega, hi2, hne⟩
      refine ⟨j + 1, by omega, by omega, fun fuel => ?_⟩
      have hk9 : k ≠ 9 := by omega
      have hstep : fuel + (j + 1) = (fuel + j) + 1 := by omega
      rw [hstep, skipLoop_succ, skipIteration_matching mem t b k nx ms (by omega), if_pos hm,
        if_neg hk9]
      exact hj fuel
    · refine ⟨1, le_refl 1, by omega, fun fuel => ?_⟩
      rw [skipLoop_succ, skipIteration_matching mem t b k nx ms (by omega), if_neg hm]
      rfl

theorem skip_position_run_target (mem : Memory) (t : Target) (b nx : Nat)
    (ms : List HackableCodeMarkers) (h0 : mem b = t.signature.getD 0 0)
    (hfirst : skipIteration mem ⟨b, b, none, nx, ms⟩ = .next ⟨b, b + 1, some t, nx, ms⟩) :
    ∃ j, 1 ≤ j ∧ j ≤ 10 ∧ ∀ fuel,
      skipLoop mem (fuel + j) ⟨b, b, none, nx, ms⟩ =
        contSkipLoop mem fuel (positionStepSkip mem b nx ms) := by
  by_cases hall : ∀ i, 1 ≤ i → i ≤ 9 → mem (b + i) = t.signature.getD i 0
  · have hm : matchesAt mem b t.signature = true := by
      rw [matchesAt_iff, signature_length]
      intro i hi
      rcases Nat.eq_zero_or_pos i with h | h
      · subst h; simpa using h0
      · exact hall i h (by omega)
    have htag : tagAt mem b = some t := by rw [tagAt_of_first mem b t h0, if_pos hm]
    refine ⟨10, by omega, le_refl 10, fun fuel => ?_⟩
    have hstep : fuel + 10 = (fuel + (8 + 1)) + 1 := by omega
    rw [hstep, skipLoop_succ, hfirst]
    simp only [positionStepSkip, htag]
    exact skip_run_full mem t b nx ms 8 1 rfl hall fuel
  · have hm : matchesAt mem b t.signature ≠ true := by
      rw [Ne, matchesAt_iff, signature_length]
      intro hm
      exact hall (fun i _ h9 => hm i (by omega))
    have htag : tagAt mem b = none := by rw [tagAt_of_first mem b t h0, if_neg hm]
    push_neg at hall
    obtain ⟨i, hi1, hi2, hne⟩ := hall
    obtain ⟨j, hj1, hj2, hj⟩ := skip_run_mismatch mem t b nx ms 8 1 rfl ⟨i, hi1, hi2, hne⟩
    refine ⟨j + 1, by omega, by omega, fun fuel => ?_⟩
    have hstep : fuel + (j + 1) = (fuel + j) + 1 := by omega
    rw [hstep, skipLoop_succ, hfirst]
    simp only [positionStepSkip, htag]
    exact hj fuel

theorem skip_position_run (mem : Memory) (b nx : Nat) (ms : List HackableCodeMarkers) :
    ∃ j, 1 ≤ j ∧ j ≤ 10 ∧ ∀ fuel,
      skipLoop mem (fuel + j) ⟨b, b, none, nx, ms⟩ =
        contSkipLoop mem fuel (positionStepSkip mem b nx ms) := by
  have hidle := skipIteration_idle mem b nx ms
  by_cases hS : mem b = 0x57
  · exact skip_position_run_target mem .StartTag b nx ms hS (by rw [hidle, if_pos hS])
  · by_cases hE : mem b = 0x56
    · exact skip_position_run_target mem .EndTag b nx ms hE
        (by rw [hidle, if_neg hS, if_pos hE])
    · by_cases hP : mem b = 0x52
      · exact skip_position_run_target mem .StopSearchTag b nx ms hP
          (by rw [hidle, if_neg hS, if_neg hE, if_pos hP])
      · have htag : tagAt mem b = none := by
          apply tagAt_of_no_first
          intro t
          cases t
          · exact hS
          · exact hE
          · exact hP
        refine ⟨1, le_refl 1, by omega, fun fuel => ?_⟩
        rw [skipLoop_succ, hidle, if_neg hS, if_neg hE, if_neg hP]
        simp only [positionStepSkip, htag]

theorem scanPositions_skip_none (mem : Memory) :
    ∀ k n b nx ms, k ≤ n → (∀ d, d < k → tagAt mem (b + d) = none) →
      scanPositions mem n b nx ms = scanPositions mem (n - k) (b + k) nx ms := by
  intro k
  induction k with
  | zero => intro n b nx ms _ _; rfl
  | succ k ih =>
    intro n b nx ms hkn hnone
    obtain ⟨n1, rfl⟩ : ∃ n1, n = n1 + 1 := ⟨n - 1, by omega⟩
    have h0 : tagAt mem b = none := by simpa using hnone 0 (by omega)
    have hrest : ∀ d, d < k → tagAt mem (b + 1 + d) = none := by
      intro d hd
      have := hnone (d + 1) (by omega)
      rwa [show b + (d + 1) = b + 1 + d by omega] at this
    have e1 : n1 + 1 - (k + 1) = n1 - k := by omega
    have e2 : b + (k + 1) = b + 1 + k := by omega
    rw [e1, e2, ← ih n1 (b + 1) nx ms (by omega) hrest]
    simp only [scanPositions, positionStep, h0]

/-- After a complete tag at `b`, the walk over candidate positions passes the other nine
bytes of the tag without effect. -/
theorem scanPositions_past_tag (mem : Memory) (b n nx : Nat) (ms : List HackableCodeMarkers)
    (t : Target) (htag : tagAt mem b = some t) (hn : 9 ≤ n) :
    scanPositions mem n (b + 1) nx ms = scanPositions mem (n - 9) (b + 10) nx ms := by
  have h := scanPositions_skip_none mem 9 n (b + 1) nx ms hn (fun d hd => by
    have := tag_no_overlap mem b (d + 1) t htag (by omega) (by omega)
    rwa [show b + (d + 1) = b + 1 + d by omega] at this)
  rw [h]

theorem skipLoop_positions (mem : Memory) :
    ∀ n b nx ms, tagAt mem (b + n) = some .StopSearchTag →
      ∀ fuel, 10 * (n + 1) ≤ fuel →
        skipLoop mem fuel ⟨b, b, none, nx, ms⟩ = some ⟨scanPositions mem n b nx ms, false⟩ := by
  intro n
  induction n using Nat.strong_induction_on with
  | _ n ih =>
    intro b nx ms hstop fuel hfuel
    obtain ⟨j, hj1, hj10, hj⟩ := skip_position_run mem b nx ms
    have hf : fuel = (fuel - j) + j := by omega
    rw [hf, hj]
    cases htag : tagAt mem b with
    | none =>
      have hn : n ≠ 0 := by
        intro h0
        rw [h0, Nat.add_zero, htag] at hstop
        exact Option.noConfusion hstop
      obtain ⟨n1, rfl⟩ : ∃ n1, n = n1 + 1 := ⟨n - 1, by omega⟩
      simp only [positionStepSkip, htag, contSkipLoop, scanPositions, positionStep]
      exact ih n1 (by omega) (b + 1) nx ms
        (by rw [show b + 1 + n1 = b + (n1 + 1) by omega]; exact hstop) (fuel - j) (by omega)
    | some t =>
      by_cases hn : n = 0
      · subst hn
        rw [Nat.add_zero, htag] at hstop
        cases Option.some.inj hstop
        simp only [positionStepSkip, htag, onFullMatchSkip, contSkipLoop, scanPositions]
      · have hn10 : 10 ≤ n := by
          by_contra hlt
          have hnone := tag_no_overlap mem b n t htag (by omega) (by omega)
          rw [hnone] at hstop
          exact Option.noConfusion hstop
        obtain ⟨n1, rfl⟩ : ∃ n1, n = n1 + 1 := ⟨n - 1, by omega⟩
        have hstop10 : tagAt mem (b + 10 + (n1 - 9)) = some .StopSearchTag := by
          rw [show b + 10 + (n1 - 9) = b + (n1 + 1) by omega]; exact hstop
        cases t with
        | StartTag =>
          simp only [positionStepSkip, htag, onFullMatchSkip, contSkipLoop, scanPositions,
            positionStep, onFullMatch]
          rw [scanPositions_past_tag mem b n1 (b + 10) ms .StartTag htag (by omega)]
          exact ih (n1 - 9) (by omega) (b + 10) (b + 10) ms hstop10 (fuel - j) (by omega)
        | EndTag =>
          simp only [positionStepSkip, htag, onFullMatchSkip, contSkipLoop, scanPositions,
            positionStep, onFullMatch]
          rw [scanPositions_past_tag mem b n1 0 _ .EndTag htag (by omega)]
          exact ih (n1 - 9) (by omega) (b + 10) 0 _ hstop10 (fuel - j) (by omega)
        | StopSearchTag =>
          simp only [positionStepSkip, htag, onFullMatchSkip, contSkipLoop, scanPositions,
            positionStep, onFullMatch]

/-- Claim C13: on every memory on which the scan of `parseHackableMarkers` returns, the
matcher that after each full match resumes just past the matched tag, with no target
selected, returns the same outcome, marker for marker, once it is given enough fuel. -/
theorem skip_matcher_same_markers (mem : Memory) (o fuel : Nat) (out : ScanOutcome)
    (h : scanMarkers mem o fuel = some out) :
    ∃ bound, ∀ fuel2, bound ≤ fuel2 → skipMarkers mem o fuel2 = some out := by
  obtain ⟨r, hor, hstop, hout⟩ := scanMarkers_some_eq mem o fuel out h
  have hr : o + (r - o) = r := by omega
  refine ⟨10 * (r - o + 1), fun fuel2 hfuel2 => ?_⟩
  rw [hout]
  exact skipLoop_positions mem (r - o) o 0 [] (by rw [hr]; exact hstop) fuel2 hfuel2

theorem skip_matcher_same_markers_witness :
    ∃ bound, ∀ fuel2, bound ≤ fuel2 →
      skipMarkers pairsMemory 90 fuel2 = some ⟨[⟨110, 114⟩, ⟨136, 136⟩], false⟩ :=
  skip_matcher_same_markers pairsMemory 90 570 ⟨[⟨110, 114⟩, ⟨136, 136⟩], false⟩ (by decide)

/-! ## The bytes the scan reads -/

theorem stop_bytes (mem : Memory) (r : Nat) (hstop : tagAt mem r = some .StopSearchTag) :
    ∀ i, i < 10 → mem (r + i) = Target.StopSearchTag.signature.getD i 0 := by
  have h := (matchesAt_iff mem r Target.StopSearchTag.signature).1
    ((tagAt_eq_some_iff mem r .StopSearchTag).1 hstop)
  rw [signature_length] at h
  exact h

theorem target_of_first_byte (t : Target)
    (h : t.signature.getD 0 0 = Target.StopSearchTag.signature.getD 0 0) :
    t = .StopSearchTag := by
  revert h
  cases t <;> decide

/-- The base cursor never passes a Stop-Search tag. -/
theorem scanIteration_base_le (mem : Memory) (s : ScanState) (r : Nat) (h : ScanInv mem s)
    (hr : s.currentBase ≤ r) (hstop : tagAt mem r = some .StopSearchTag) :
    match scanIteration mem s with
    | .next s1 => s1.currentBase ≤ r
    | .done _ => True := by
  have hbytes := stop_bytes mem r hstop
  obtain ⟨b, sk, tgt, nx, ms⟩ := s
  obtain ⟨k, hk9, hseek, htgt⟩ := h
  simp only at hseek htgt hr
  subst hseek
  cases tgt with
  | none =>
    simp only at htgt
    subst htgt
    rw [Nat.add_zero, iteration_idle]
    by_cases hS : mem b = 0x57
    · rw [if_pos hS]; exact hr
    · rw [if_neg hS]
      by_cases hE : mem b = 0x56
      · rw [if_pos hE]; exact hr
      · rw [if_neg hE]
        by_cases hP : mem b = 0x52
        · rw [if_pos hP]; exact hr
        · rw [if_neg hP]
          show b + 1 ≤ r
          by_contra hlt
          have hbr : b = r := by omega
          have h0 := hbytes 0 (by omega)
          rw [Nat.add_zero, ← hbr] at h0
          exact hP (by simpa using h0)
  | some t =>
    simp only at htgt
    obtain ⟨hk1, hpre⟩ := htgt
    have hfirst : b = r → t = .StopSearchTag := by
      intro hbr
      apply target_of_first_byte
      have h0 := hbytes 0 (by omega)
      have h1 := hpre 0 (by omega)
      rw [Nat.add_zero] at h0 h1
      rw [← h1, hbr, h0]
    rw [iteration_matching mem t b k nx ms hk9]
    by_cases hm : mem (b + k) = t.signature.getD k 0
    · rw [if_pos hm]
      by_cases h9 : k = 9
      · rw [if_pos h9]
        cases t with
        | StartTag =>
          show b + 1 ≤ r
          by_contra hlt
          exact Target.noConfusion (hfirst (by omega))
        | EndTag =>
          show b + 1 ≤ r
          by_contra hlt
          exact Target.noConfusion (hfirst (by omega))
        | StopSearchTag => trivial
      · rw [if_neg h9]; exact hr
    · rw [if_neg hm]
      show b + 1 ≤ r
      by_contra hlt
      have hbr : b = r := by omega
      have ht := hfirst hbr
      subst ht
      exact hm (by rw [hbr]; exact hbytes k (by omega))

theorem iterationReads_mem (s : ScanState) (a : Nat) (h : a ∈ iterationReads s) :
    a = s.currentSeek := by
  unfold iterationReads at h
  split at h
  · simp at h
  · simpa using h

theorem scanReads_bound (mem : Memory) (r : Nat) (hstop : tagAt mem r = some .StopSearchTag) :
    ∀ fuel s, ScanInv mem s → s.currentBase ≤ r →
      ∀ a ∈ scanReads mem fuel s, s.currentBase ≤ a ∧ a ≤ r + 9 := by
  intro fuel
  induction fuel with
  | zero => intro s _ _ a ha; simp [scanReads] at ha
  | succ fuel ih =>
    intro s hinv hr a ha
    simp only [scanReads, List.mem_append] at ha
    rcases ha with ha | ha
    · have ha1 := iterationReads_mem s a ha
      obtain ⟨k, hk, hseek, _⟩ := hinv
      omega
    · have hstep := scanIteration_inv mem s hinv
      have hle := scanIteration_base_le mem s r hinv hr hstop
      cases hit : scanIteration mem s with
      | next s1 =>
        rw [hit] at ha hstep hle
        have := ih s1 hstep.1 hle a ha
        exact ⟨le_trans hstep.2 this.1, this.2⟩
      | done out =>
        rw [hit] at ha
        simp at ha

theorem scanIteration_congr (mem mem2 : Memory) (s : ScanState)
    (h : mem2 s.currentSeek = mem s.currentSeek) :
    scanIteration mem2 s = scanIteration mem s := by
  simp only [scanIteration, h]

/-- Two memories that agree from the origin to the last byte of a Stop-Search tag are
scanned alike. -/
theorem scanLoop_congr (mem mem2 : Memory) (o r : Nat)
    (hstop : tagAt mem r = some .StopSearchTag)
    (hagree : ∀ a, o ≤ a → a ≤ r + 9 → mem2 a = mem a) :
    ∀ fuel s, ScanInv mem s → o ≤ s.currentBase → s.currentBase ≤ r →
      scanLoop mem2 fuel s = scanLoop mem fuel s := by
  intro fuel
  induction fuel with
  | zero => intro s _ _ _; rfl
  | succ fuel ih =>
    intro s hinv ho hr
    have hseek : mem2 s.currentSeek = mem s.currentSeek := by
      obtain ⟨k, hk, hseek, _⟩ := hinv
      exact hagree _ (by omega) (by omega)
    rw [scanLoop_succ, scanLoop_succ, scanIteration_congr mem mem2 s hseek]
    have hstep := scanIteration_inv mem s hinv
    have hle := scanIteration_base_le mem s r hinv hr hstop
    cases hit : scanIteration mem s with
    | next s1 =>
      rw [hit] at hstep hle
      exact ih s1 hstep.1 (le_trans ho hstep.2) hle
    | done out => rfl

theorem scanStateAfter_shift (mem : Memory) (s0 s1 : ScanState)
    (h : scanIteration mem s0 = .next s1) :
    ∀ n, scanStateAfter mem s0 (n + 1) = scanStateAfter mem s1 n := by
  intro n
  induction n with
  | zero => simp only [scanStateAfter, h]
  | succ n ih =>
    have e : scanStateAfter mem s0 (n + 1 + 1) =
        match scanStateAfter mem s0 (n + 1) with
        | none => none
        | some s2 =>
          match scanIteration mem s2 with
          | .next s3 => some s3
          | .done _ => none := rfl
    rw [e, ih]
    rfl

/-- A loop that returns has reached, after some number of iterations, a state on which
the loop body breaks with that outcome. -/
theorem scanLoop_break_state (mem : Memory) :
    ∀ fuel s0 out, scanLoop mem fuel s0 = some out →
      ∃ n s, scanStateAfter mem s0 n = some s ∧ scanIteration mem s = .done out := by
  intro fuel
  induction fuel with
  | zero => intro s0 out h; simp [scanLoop] at h
  | succ fuel ih =>
    intro s0 out h
    rw [scanLoop_succ] at h
    cases hit : scanIteration mem s0 with
    | next s1 =>
      rw [hit] at h
      obtain ⟨n, s, hn, hdone⟩ := ih s1 out h
      exact ⟨n + 1, s, by rw [scanStateAfter_shift mem s0 s1 hit]; exact hn, hdone⟩
    | done out1 =>
      rw [hit] at h
      simp only [contLoop, Option.some.injEq] at h
      subst h
      exact ⟨0, s0, rfl, hit⟩

theorem viewMemory_stop_in_view (view : List Nat) (r : Nat)
    (hstop : tagAt (viewMemory view) r = some .StopSearchTag) : r + 10 ≤ view.length := by
  by_contra hlt
  have h9 := stop_bytes (viewMemory view) r hstop 9 (by omega)
  have hout : viewMemory view (r + 9) = 0 := by
    simp only [viewMemory]
    rw [List.getD_eq_default]
    omega
  rw [hout] at h9
  revert h9
  decide

theorem scanStateAfter_base_le (mem : Memory) (s0 : ScanState) (r : Nat)
    (h0 : ScanInv mem s0) (hr0 : s0.currentBase ≤ r)
    (hstop : tagAt mem r = some .StopSearchTag) :
    ∀ n s, scanStateAfter mem s0 n = some s → s.currentBase ≤ r := by
  intro n
  induction n with
  | zero =>
    intro s h
    simp only [scanStateAfter, Option.some.injEq] at h
    subst h
    exact hr0
  | succ n ih =>
    intro s h
    cases hprev : scanStateAfter mem s0 n with
    | none =>
      simp only [scanStateAfter, hprev] at h
      exact absurd h (by simp)
    | some s1 =>
      rw [scanStateAfter_succ mem s0 s1 n hprev] at h
      have hinv1 := (scanStateAfter_inv mem s0 h0 n s1 hprev).1
      have hle := scanIteration_base_le mem s1 r hinv1 (ih s1 hprev) hstop
      cases hit : scanIteration mem s1 with
      | next s2 =>
        rw [hit] at h hle
        simp only [Option.some.injEq] at h
        subst h
        exact hle
      | done out =>
        rw [hit] at h
        exact absurd h (by simp)

/-- Claim C16: on a finite byte view whose first complete Stop-Search tag at or after
the scan origin `o` begins at `r`, the scan returns; its loop breaks with the base cursor
at `r`; every address it reads lies between `o` and `r + 9`, the last byte of that tag,
hence inside the view; and any memory that agrees with the view on those addresses is
scanned with the same result. -/
theorem scan_stays_within_view (view : List Nat) (o r : Nat) (hor : o ≤ r)
    (hstop : tagAt (viewMemory view) r = some .StopSearchTag)
    (hfirst : ∀ x, o ≤ x → x < r → tagAt (viewMemory view) x ≠ some .StopSearchTag)
    (fuel : Nat) (hfuel : 10 * (r - o + 1) ≤ fuel) :
    ∃ out, scanMarkers (viewMemory view) o fuel = some out ∧
      (∃ n s, scanStateAfter (viewMemory view) (initialScanState o) n = some s ∧
        s.currentBase = r ∧ scanIteration (viewMemory view) s = .done out) ∧
      (∀ fuel1, ∀ a ∈ scanReads (viewMemory view) fuel1 (initialScanState o),
        o ≤ a ∧ a ≤ r + 9 ∧ a < view.length) ∧
      ∀ mem2 : Memory, (∀ a, o ≤ a → a ≤ r + 9 → mem2 a = viewMemory view a) →
        ∀ fuel1, scanMarkers mem2 o fuel1 = scanMarkers (viewMemory view) o fuel1 := by
  have hr : o + (r - o) = r := by omega
  have hinview := viewMemory_stop_in_view view r hstop
  have hinit := scanInv_initial (viewMemory view) o
  have hscan : scanMarkers (viewMemory view) o fuel =
      some ⟨scanPositions (viewMemory view) (r - o) o 0 [], false⟩ :=
    scanLoop_positions (viewMemory view) (r - o) o 0 [] (by rw [hr]; exact hstop) fuel hfuel
  refine ⟨_, hscan, ?_, ?_, ?_⟩
  · obtain ⟨n, s, hn, hdone⟩ := scanLoop_break_state (viewMemory view) fuel
      (initialScanState o) _ hscan
    refine ⟨n, s, hn, ?_, hdone⟩
    obtain ⟨hinv, hle⟩ := scanStateAfter_inv (viewMemory view) (initialScanState o) hinit n s hn
    have hbr := scanStateAfter_base_le (viewMemory view) (initialScanState o) r hinit hor
      hstop n s hn
    have hstep := scanIteration_inv (viewMemory view) s hinv
    rw [hdone] at hstep
    have ho : o ≤ s.currentBase := hle
    by_contra hne
    exact hfirst s.currentBase ho (by omega) hstep.2.2
  · intro fuel1 a ha
    have := scanReads_bound (viewMemory view) r hstop fuel1 (initialScanState o) hinit hor a ha
    have h1 : o ≤ a := this.1
    exact ⟨h1, this.2, by omega⟩
  · intro mem2 hagree fuel1
    exact scanLoop_congr (viewMemory view) mem2 o r hstop hagree fuel1 (initialScanState o)
      hinit (le_refl o) hor

theorem scan_stays_within_view_witness :
    ∃ out, scanMarkers (viewMemory sampleView) 0 240 = some out ∧
      (∃ n s, scanStateAfter (viewMemory sampleView) (initialScanState 0) n = some s ∧
        s.currentBase = 23 ∧ scanIteration (viewMemory sampleView) s = .done out) ∧
      (∀ fuel1, ∀ a ∈ scanReads (viewMemory sampleView) fuel1 (initialScanState 0),
        0 ≤ a ∧ a ≤ 23 + 9 ∧ a < sampleView.length) ∧
      ∀ mem2 : Memory, (∀ a, 0 ≤ a → a ≤ 23 + 9 → mem2 a = viewMemory sampleView a) →
        ∀ fuel1, scanMarkers mem2 0 fuel1 = scanMarkers (viewMemory sampleView) 0 fuel1 :=
  scan_stays_within_view sampleView 0 23 (by decide) (by decide)
    (fun x h1 h2 =>
      (by decide : ∀ x, x < 23 → 0 ≤ x →
        tagAt (viewMemory sampleView) x ≠ some .StopSearchTag) x h2 h1)
    240 (by decide)

end HackableCode

end SelfHackingApp
